import Mathlib

/-!
Verification development for the safe-rm deletion-interception tool.

The Go sources are embedded shallowly:
* strings are modelled through their character lists (all paths in the
  claims are ASCII, so Go's byte-level operations coincide with the
  character-level model);
* the filesystem is a finite tree of directories and files
  (`SafeRm.Entry`); syscalls (`os.Rename`, `os.WriteFile`, `os.Remove`,
  `os.RemoveAll`, `os.MkdirAll`, `filepath.Walk`) become total functions
  on that tree, returning `Option` where the syscall can fail;
* `time.Time` values become `SafeRm.DateTime` records of the six clock
  fields; `Before`/`After` compare the positional key, which agrees with
  instant comparison for same-zone wall-clock values;
* JSON (de)serialisation of the metadata sidecar is abstracted by the
  `FileContent.metaJson` constructor: a sidecar written by
  `writeMetadata` parses back to the same record, any other content is
  unparseable (`GetMetadata` fails on it).
-/

namespace SafeRm

/-! ## String helpers (models of Go `strings` functions) -/

/-- Model of Go `strings.HasPrefix s pre`. -/
def hasPre (s pre : String) : Bool :=
  pre.data.isPrefixOf s.data

/-- Model of Go `strings.HasSuffix s suf`. -/
def hasSuf (s suf : String) : Bool :=
  suf.data.isSuffixOf s.data

/-- Model of Go `strings.TrimSuffix s suf`: drops a trailing `suf` when present. -/
def trimSuf (s suf : String) : String :=
  if hasSuf s suf then ⟨s.data.take (s.data.length - suf.data.length)⟩ else s

/-- Model of Go `strings.Replace s old new 1` on character lists:
replace the first occurrence of `old`. -/
def replaceFirstL (old rep : List Char) : List Char → List Char
  | [] => if old = [] then rep else []
  | c :: cs =>
    if old.isPrefixOf (c :: cs) then rep ++ (c :: cs).drop old.length
    else c :: replaceFirstL old rep cs

/-- Model of Go `strings.Replace s old new 1`. -/
def replaceFirst (s old rep : String) : String :=
  ⟨replaceFirstL old.data rep.data s.data⟩

/-! ## Go `path/filepath` glob matching

`goMatchL` is a direct backtracking rendition of the semantics of
`filepath.Match` on Unix: `*` matches any run of non-separator
characters, `?` a single non-separator character, `[...]` a character
class with ranges and `^` negation, `\x` escapes `x`.  `protect.Check`
only uses the combined result `matched && err == nil`, so a malformed
pattern is folded into `false` here, exactly as `Check` treats it. -/

/-- A path separator character (Unix). -/
def isSep (c : Char) : Bool := c = '/'

/-- Model of the `getEsc` helper of `filepath.Match`: read one
(possibly escaped) character-range endpoint. -/
def getEsc : List Char → Option (Char × List Char)
  | [] => none
  | c :: cs =>
    if c = '-' ∨ c = ']' then none
    else if c = '\\' then
      match cs with
      | [] => none
      | d :: ds => some (d, ds)
    else some (c, cs)

/-- Read one character range `lo-hi` (or a single character, giving
`lo = hi`) from a class body, mirroring the range loop of
`filepath.Match`. -/
def readRange (cs : List Char) : Option (Char × Char × List Char) :=
  match getEsc cs with
  | none => none
  | some (lo, rest1) =>
    match rest1 with
    | '-' :: rest2 =>
      match getEsc rest2 with
      | none => none
      | some (hi, rest3) => some (lo, hi, rest3)
    | _ => some (lo, lo, rest1)

/-- Parse the ranges of a character class against character `r`,
returning whether some range matched and the pattern rest after the
closing `]`.  `seen` records whether at least one range was read
(Go requires a non-empty class before `]` closes it).  The fuel is
structural bookkeeping only: each iteration consumes at least one
pattern character, and every caller passes more fuel than the pattern
length, so the fuel never runs out. -/
def classRanges (r : Char) : Nat → Bool → Bool → List Char → Option (Bool × List Char)
  | 0, _, _, _ => none
  | _ + 1, _, _, [] => none
  | f + 1, acc, seen, c :: cs =>
    if c = ']' ∧ seen then some (acc, cs)
    else
      match readRange (c :: cs) with
      | none => none
      | some (lo, hi, rest) => classRanges r f (acc ∨ (lo ≤ r ∧ r ≤ hi)) true rest

/-- Backtracking matcher with the semantics of Go `filepath.Match p s`
restricted to `matched = true ∧ err = nil` (the only case `Check` acts
on).  The fuel argument is structural bookkeeping only: every
recursive call strictly decreases `p.length + s.length`, so the
`goMatchL` wrapper's fuel never runs out. -/
def goMatchFuel : Nat → List Char → List Char → Bool
  | 0, _, _ => false
  | f + 1, p, s =>
    match p with
    | [] => s.isEmpty
    | pc :: ps =>
      if pc = '*' then
        goMatchFuel f ps s ||
          (match s with
           | [] => false
           | c :: cs => !isSep c && goMatchFuel f ('*' :: ps) cs)
      else if pc = '?' then
        match s with
        | [] => false
        | c :: cs => !isSep c && goMatchFuel f ps cs
      else if pc = '[' then
        match s with
        | [] => false
        | c :: cs =>
          match ps with
          | '^' :: ps' =>
            (match classRanges c (ps'.length + 1) false false ps' with
             | some (m, rest) => !m && goMatchFuel f rest cs
             | none => false)
          | _ =>
            (match classRanges c (ps.length + 1) false false ps with
             | some (m, rest) => m && goMatchFuel f rest cs
             | none => false)
      else if pc = '\\' then
        match ps, s with
        | p' :: ps', c :: cs => p' = c && goMatchFuel f ps' cs
        | _, _ => false
      else
        match s with
        | [] => false
        | c :: cs => pc = c && goMatchFuel f ps cs

/-- The matcher at its always-sufficient fuel. -/
def goMatchL (p s : List Char) : Bool :=
  goMatchFuel (p.length + s.length + 1) p s

/-- Model of Go `filepath.Match pattern name` as used by `Check`
(`matched ∧ err == nil`). -/
def goMatch (pattern name : String) : Bool :=
  goMatchL pattern.data name.data

/-! ## Go `path/filepath` lexical path functions (Unix rules) -/

/-- Split a character list on `/`. -/
def splitSlash : List Char → List (List Char)
  | [] => [[]]
  | c :: cs =>
    let rest := splitSlash cs
    if isSep c then [] :: rest
    else
      match rest with
      | [] => [[c]]
      | r :: rs => (c :: r) :: rs

/-- One step of `filepath.Clean`'s element processing.  The stack keeps
the most recent component first; `rooted` says whether the path is
absolute. -/
def cleanStep (rooted : Bool) (stack : List (List Char)) (comp : List Char) : List (List Char) :=
  if comp = [] ∨ comp = ['.'] then stack
  else if comp = ['.', '.'] then
    match stack with
    | c :: rest => if c = ['.', '.'] then comp :: stack else rest
    | [] => if rooted then [] else [comp]
  else comp :: stack

/-- Join components with `/`. -/
def joinSlash : List (List Char) → List Char
  | [] => []
  | [c] => c
  | c :: cs => c ++ '/' :: joinSlash cs

/-- Model of Go `filepath.Clean` for Unix paths. -/
def goClean (s : String) : String :=
  match s.data with
  | [] => "."
  | c :: cs =>
    let rooted := isSep c
    let comps := splitSlash (c :: cs)
    let out := (comps.foldl (cleanStep rooted) []).reverse
    if rooted then
      ⟨'/' :: joinSlash out⟩
    else if out = [] then "."
    else ⟨joinSlash out⟩

/-- Model of Go `filepath.Base` for Unix paths. -/
def goBase (s : String) : String :=
  match s.data with
  | [] => "."
  | c :: cs =>
    let trimmed := (((c :: cs).reverse).dropWhile isSep).reverse
    match trimmed with
    | [] => "/"
    | t =>
      match (t.reverse.takeWhile (fun x => !isSep x)).reverse with
      | [] => "/"
      | b => ⟨b⟩

/-- Model of Go `filepath.Join a b` (both parts non-empty in every use
in this code base): concatenate with `/` and clean. -/
def goJoin (a b : String) : String :=
  goClean (a ++ "/" ++ b)

/-- Model of Go `filepath.Abs` relative to working directory `cwd`
(`os.Getwd` is modelled as an explicit parameter and never fails). -/
def goAbs (cwd s : String) : String :=
  if hasPre s "/" then goClean s else goJoin cwd s

/-! ## The protection classifier (`internal/protect`)

`Check` is a pure function except for two filesystem probes: the
repository-marker existence test (`filepath.Glob` on `absPath/.git`),
modelled by the oracle `gitGlob`, and the working directory consulted
by `filepath.Abs` during `~` expansion, modelled by `cwd`. -/

/-- Result of classification (`protect.Status`; the Go field
`Protected` is called `prot` because `protected` is a Lean keyword). -/
structure Status where
  prot : Bool
  reason : String
  deriving DecidableEq, Repr

/-- Configuration fields consumed by the core (`config.Config`). -/
structure Config where
  protectedPaths : List String
  protectedBehavior : String
  deriving Repr

/-- The built-in protected path table of `internal/protect`. -/
def builtinProtectedPaths : List String :=
  ["/", "/bin", "/boot", "/dev", "/etc", "/home", "/lib", "/lib64",
   "/opt", "/proc", "/root", "/run", "/sbin", "/srv", "/sys", "/tmp",
   "/usr", "/var"]

/-- Model of `protect.isWildcardRoot`. -/
def isWildcardRoot (s : String) : Bool :=
  s = "/*" ∨ s = "\\*"

/-- Model of `protect.isGitPath`.  The `filepath.Abs(gitPath)` test in
the source never fails for the absolute inputs `Check` produces, so it
is modelled as always passing; the `filepath.Glob` existence probe is
the oracle `gitGlob`. -/
def isGitPath (gitGlob : String → Bool) (absPath : String) : Bool :=
  goBase absPath = ".git" || gitGlob (goJoin absPath ".git")

/-- The built-in protected path loop of `protect.Check`, first match wins. -/
def checkBuiltin (absPath : String) (recursive : Bool) : Option Status :=
  builtinProtectedPaths.findSome? fun protDir =>
    if absPath = protDir ∨ absPath = protDir ++ "/" then
      some ⟨true, "System directory is protected: " ++ protDir⟩
    else if recursive ∧ hasPre protDir (absPath ++ "/") then
      some ⟨true, "Path contains protected system directory: " ++ protDir⟩
    else none

/-- The user-defined pattern loop of `protect.Check`, first match wins.
The `~` expansion reproduces the source literally:
`homeDir := filepath.Abs(filepath.Join("~"))`, i.e. the cleaned working
directory joined with the literal component `~`, not the home
directory. -/
def checkUserPats (cwd : String) (pats : List String) (absPath : String) : Option Status :=
  pats.findSome? fun pat0 =>
    let pat :=
      if hasPre pat0 "~" then
        let homeDir := goAbs cwd (goClean "~")
        replaceFirst pat0 "~" homeDir
      else pat0
    if goMatch pat absPath then
      some ⟨true, "Path matches protected pattern: " ++ pat⟩
    else if hasSuf pat "/**" then
      let dirPat := trimSuf pat "/**"
      if hasPre absPath dirPat then
        some ⟨true, "Path is under protected directory: " ++ dirPat⟩
      else none
    else none

/-- Model of `protect.Check`. -/
def Check (cfg : Config) (cwd : String) (gitGlob : String → Bool)
    (absPath0 : String) (recursive : Bool) : Status :=
  let absPath := goClean absPath0
  if absPath = "/" ∨ absPath = "\\" then
    ⟨true, "Root directory is always protected"⟩
  else if isWildcardRoot absPath then
    ⟨true, "Wildcard patterns targeting root level are blocked"⟩
  else
    match checkBuiltin absPath recursive with
    | some st => st
    | none =>
      if isGitPath gitGlob absPath then
        ⟨true, ".git directory or repository root is protected"⟩
      else
        match checkUserPats cwd cfg.protectedPaths absPath with
        | some st => st
        | none => ⟨false, ""⟩

/-! ## Wall-clock times and the `"20060102-150405"` format

`time.Time` values are modelled by their six clock fields (same zone
throughout a run).  `Before`/`After` compare `key`, the positional
encoding, which orders valid wall-clock values exactly as instant
comparison does. -/

/-- A wall-clock time (year, month, day, hour, minute, second). -/
structure DateTime where
  y : Nat
  mo : Nat
  d : Nat
  h : Nat
  mi : Nat
  s : Nat
  deriving DecidableEq, Repr

/-- Positional encoding of a wall-clock time; strictly monotone in the
lexicographic field order for in-range fields. -/
def DateTime.key (t : DateTime) : Nat :=
  ((((t.y * 100 + t.mo) * 100 + t.d) * 100 + t.h) * 100 + t.mi) * 100 + t.s

/-- Model of `time.Time.Before`. -/
def DateTime.before (a b : DateTime) : Bool :=
  a.key < b.key

/-- Model of `time.Time.After`. -/
def DateTime.after (a b : DateTime) : Bool :=
  b.key < a.key

/-- In-range clock fields: the year is four digits, every other field
two digits (true of every real timestamp the tool produces). -/
def DateTime.valid (t : DateTime) : Prop :=
  t.y < 10000 ∧ t.mo < 100 ∧ t.d < 100 ∧ t.h < 100 ∧ t.mi < 100 ∧ t.s < 100

instance : DecidablePred DateTime.valid := fun t => by
  unfold DateTime.valid; infer_instance

/-- The `w` decimal digits of `n`, most significant first (zero padded),
as digit values. -/
def padDigits : Nat → Nat → List Nat
  | 0, _ => []
  | w + 1, n => padDigits w (n / 10) ++ [n % 10]

/-- Decimal digit as a character. -/
def digitChar (n : Nat) : Char :=
  Char.ofNat (48 + n)

/-- Model of Go `t.Format("20060102-150405")`: four-digit year, then
two-digit month/day, a dash, and two-digit hour/minute/second. -/
def fmtTs (t : DateTime) : String :=
  ⟨(padDigits 8 (((t.y * 100 + t.mo) * 100 + t.d))).map digitChar ++
    '-' :: (padDigits 6 ((t.h * 100 + t.mi) * 100 + t.s)).map digitChar⟩

/-! ## The filesystem model

A filesystem is a finite tree.  Directory listings keep the order
`os.ReadDir` returns (sorted by name); concrete examples below are
built already sorted, and no theorem depends on the ordering beyond
parent-before-child traversal. -/

/-- A path as its list of components (an absolute Unix path string with
the leading separator stripped and split on `/`). -/
abbrev Path := List String

/-- The sidecar record (`trash.Metadata`).  `originalPath` holds the
components of the recorded absolute path. -/
structure Metadata where
  originalPath : Path
  deletedAt : DateTime
  hostname : String
  isDirectory : Bool
  deriving DecidableEq, Repr

/-- Contents of a regular file.  Sidecar metadata produced by
`writeMetadata` is JSON that `GetMetadata` parses back
(`metaJson`); `corrupt` stands for bytes that fail to parse. -/
inductive FileContent where
  | bytes (data : String)
  | metaJson (m : Metadata)
  | corrupt (data : String)
  deriving DecidableEq, Repr

/-- A filesystem tree: regular files and directories.  Directory
listings are association lists from names to entries in `os.ReadDir`
order. -/
inductive Entry where
  | file (content : FileContent)
  | dir (children : List (String × Entry))
  deriving Repr

/-- Directory listing. -/
abbrev Dirents := List (String × Entry)

/-- Is the entry a directory (`os.FileInfo.IsDir`). -/
def Entry.isDirB : Entry → Bool
  | .file _ => false
  | .dir _ => true

/-- Listing lookup by name (first binding wins, as in a real directory
where names are unique). -/
def getChild (ch : Dirents) (n : String) : Option Entry :=
  match ch with
  | [] => none
  | (m, e) :: rest => if m = n then some e else getChild rest n

/-- Replace the binding for `n` (or append a new one at the end). -/
def setChild (ch : Dirents) (n : String) (e : Entry) : Dirents :=
  match ch with
  | [] => [(n, e)]
  | (m, x) :: rest => if m = n then (m, e) :: rest else (m, x) :: setChild rest n e

/-- Drop the binding for `n` (names are unique in a real directory;
dropping every binding of the name keeps the model total). -/
def delChild (ch : Dirents) (n : String) : Dirents :=
  ch.filter fun x => x.1 ≠ n

/-- Resolve a path in the tree (the common core of `os.Stat`/`os.Lstat`;
the model has no symbolic links). -/
def lookupFs : Entry → Path → Option Entry
  | e, [] => some e
  | .file _, _ :: _ => none
  | .dir ch, n :: rest =>
    match getChild ch n with
    | some sub => lookupFs sub rest
    | none => none

/-- Overwrite the entry at a path whose parent chain already exists as
directories; `none` when the chain is broken. -/
def setAt : Entry → Path → Entry → Option Entry
  | _, [], e => some e
  | .file _, _ :: _, _ => none
  | .dir ch, [n], e => some (.dir (setChild ch n e))
  | .dir ch, n :: rest :: rests, e =>
    match getChild ch n with
    | some sub => (setAt sub (rest :: rests) e).map (fun s => Entry.dir (setChild ch n s))
    | none => none

/-- Remove the binding at a path; a no-op when the path (or its parent
chain) does not exist.  This is the effect core of `os.RemoveAll`. -/
def eraseAt : Entry → Path → Entry
  | e, [] => e
  | .file c, _ :: _ => .file c
  | .dir ch, [n] => .dir (delChild ch n)
  | .dir ch, n :: rest :: rests =>
    match getChild ch n with
    | some sub => .dir (setChild ch n (eraseAt sub (rest :: rests)))
    | none => .dir ch

/-- Model of `os.RemoveAll` (recursive delete, success on a missing
path). -/
def removeAllFs (fs : Entry) (p : Path) : Entry :=
  eraseAt fs p

/-- Model of `os.Remove`: deletes a file or an empty directory, fails
otherwise. -/
def removeF : Entry → Path → Option Entry
  | _, [] => none
  | .file _, _ :: _ => none
  | .dir ch, [n] =>
    match getChild ch n with
    | some (.file _) => some (.dir (delChild ch n))
    | some (.dir []) => some (.dir (delChild ch n))
    | some (.dir (_ :: _)) => none
    | none => none
  | .dir ch, n :: rest :: rests =>
    match getChild ch n with
    | some sub => (removeF sub (rest :: rests)).map (fun s => Entry.dir (setChild ch n s))
    | none => none

/-- Model of `os.WriteFile`: create or overwrite a regular file; fails
if the parent chain is broken or the target is a directory. -/
def writeF : Entry → Path → FileContent → Option Entry
  | _, [], _ => none
  | .file _, _ :: _, _ => none
  | .dir ch, [n], c =>
    match getChild ch n with
    | some (.dir _) => none
    | _ => some (.dir (setChild ch n (.file c)))
  | .dir ch, n :: rest :: rests, c =>
    match getChild ch n with
    | some sub => (writeF sub (rest :: rests) c).map (fun s => Entry.dir (setChild ch n s))
    | none => none

/-- Model of `os.MkdirAll`: create every missing directory on the path;
fails if a regular file is in the way. -/
def mkdirAllFs : Entry → Path → Option Entry
  | .file _, [] => none
  | .dir ch, [] => some (.dir ch)
  | .file _, _ :: _ => none
  | .dir ch, n :: rest =>
    match getChild ch n with
    | some sub => (mkdirAllFs sub rest).map (fun s => Entry.dir (setChild ch n s))
    | none => (mkdirAllFs (.dir []) rest).map (fun s => Entry.dir (setChild ch n s))

/-- Model of `os.Rename` for the configurations the tool meets: moves
the source entry to the destination path, overwriting a regular file
but failing when the destination is a directory (and, like the real
syscall, failing when the source is missing or the destination's parent
chain is broken). -/
def renameFs (fs : Entry) (src dst : Path) : Option Entry :=
  match lookupFs fs src with
  | none => none
  | some e =>
    match lookupFs fs dst with
    | some (.dir _) => none
    | _ => setAt (eraseAt fs src) dst e

/-! ## Primitive filesystem operations as an effect trace

`trash.Move` is embedded as the list of syscalls it performs
(`movePlan`) together with their sequential execution (`execList`);
`move` is the composition.  This keeps the temporal order of the
syscalls available to the safety theorems. -/

/-- One syscall performed by the trash mover. -/
inductive FsOp where
  | mkAll (p : Path)
  | ren (src dst : Path)
  | wr (p : Path) (c : FileContent)
  | rmF (p : Path)
  | rmAll (p : Path)
  | wrMetaTry (p : Path) (c : FileContent)
  deriving Repr

/-- Execute one syscall.  `wrMetaTry` is the best-effort metadata write
of `Move` (a failure is only logged, never propagated). -/
def exec (fs : Entry) : FsOp → Option Entry
  | .mkAll p => mkdirAllFs fs p
  | .ren s d => renameFs fs s d
  | .wr p c => writeF fs p c
  | .rmF p => removeF fs p
  | .rmAll p => some (removeAllFs fs p)
  | .wrMetaTry p c => some ((writeF fs p c).getD fs)

/-- Execute syscalls in order, stopping at the first failure and
reporting the filesystem as it stands at that point. -/
def execList (fs : Entry) : List FsOp → Entry × Bool
  | [] => (fs, true)
  | op :: ops =>
    match exec fs op with
    | some fs' => execList fs' ops
    | none => (fs, false)

/-- Append a string to the final component of a path (the component
model of Go's `path + suffix` on a path string, since the appended
suffixes contain no separator). -/
def appendLast : Path → String → Path
  | [], s => [s]
  | [n], s => [n ++ s]
  | n :: m :: rest, s => n :: appendLast (m :: rest) s

/-- The sidecar suffix literal. -/
def metaSfx : String := ".saferm-meta"

/-- The sidecar path of a trashed item (`item + ".saferm-meta"`). -/
def sidecarPath (p : Path) : Path :=
  appendLast p metaSfx

mutual

/-- Syscall trace of `copyFileAndDelete`/`copyDirAndDelete` on the
subtree `e` found at `src`: files are written to the destination and
then removed from the source; a directory is created at the
destination, its entries processed in listing order, and the source
directory removed last.  (The Go code re-reads the source while
copying; the trace is computed from the subtree as initially read,
which agrees with the re-reads because the destination — inside the
trash root — is never inside the source being copied.) -/
def copyOps : Path → Path → Entry → List FsOp
  | src, dst, .file c => [.wr dst c, .rmF src]
  | src, dst, .dir ch => .mkAll dst :: copyChildOps src dst ch ++ [.rmAll src]

/-- Traces of the entries of a directory, in listing order. -/
def copyChildOps : Path → Path → Dirents → List FsOp
  | _, _, [] => []
  | src, dst, (n, e) :: rest => copyOps (src ++ [n]) (dst ++ [n]) e ++ copyChildOps src dst rest

end

/-! ## `trash.Move` -/

/-- Ambient inputs of `trash.Move`: the configured trash directory
(`cfg.GetTrashDir()`, as components), `os.Hostname()`, `time.Now()`,
and whether the source and the trash root live on different devices
(making `os.Rename` fail with a cross-device error). -/
structure MoveEnv where
  trashBase : Path
  hostname : String
  now : DateTime
  crossDev : Bool

/-- The destination `Move` computes: `trashBase/hostname/` plus the
absolute source path with its leading separator stripped; when that
path already exists, `"." + timestamp` is appended to its final
component — once, with no further retry. -/
def moveDest (env : MoveEnv) (fs : Entry) (src : Path) : Path :=
  let d := env.trashBase ++ env.hostname :: src
  if (lookupFs fs d).isSome then appendLast d ("." ++ fmtTs env.now) else d

/-- The syscall plan of `trash.Move` together with the destination:
`Lstat` the source tree, compute the (possibly disambiguated)
destination, `MkdirAll` its parent, move by `Rename` — falling back to
copy+delete when the rename fails (cross-device or otherwise) — and
finally write the metadata sidecar best-effort.  `none` models the
`Lstat` failure return. -/
def movePlan (env : MoveEnv) (fs : Entry) (src : Path) : Option (List FsOp × Path) :=
  match lookupFs fs src with
  | none => none
  | some e =>
    let dst := moveDest env fs src
    let mk : FsOp := .mkAll dst.dropLast
    let side : FsOp := .wrMetaTry (sidecarPath dst)
      (.metaJson ⟨src, env.now, env.hostname, e.isDirB⟩)
    let middle : List FsOp :=
      match mkdirAllFs fs dst.dropLast with
      | none => []
      | some fs1 =>
        if env.crossDev ∨ (renameFs fs1 src dst).isNone then copyOps src dst e
        else [.ren src dst]
    some (mk :: middle ++ [side], dst)

/-- Model of `trash.Move`: run the plan; the returned path is reported
only on success (the Go function returns `("", err)` on failure, with
whatever partial filesystem state the failed step left behind). -/
def Move (env : MoveEnv) (fs : Entry) (src : Path) : Entry × Bool × Option Path :=
  match movePlan env fs src with
  | none => (fs, false, none)
  | some (ops, dst) =>
    let r := execList fs ops
    (r.1, r.2, if r.2 then some dst else none)

/-! ## The trash scanner (`findTrashItems`) -/

/-- Does a directory listing contain an entry whose name does not end
in the sidecar suffix (the condition under which `findTrashItems`
skips the directory)? -/
def hasNonMeta (ch : Dirents) : Bool :=
  ch.any fun c => !(hasSuf c.1 metaSfx)

mutual

/-- The body of the `filepath.Walk` callback of `findTrashItems`
applied to the children of a directory: for each entry (parents before
children, listing order) emit its path when it is not itself a sidecar,
it is not a directory containing a non-sidecar entry, and a sidecar for
it exists among its siblings — then recurse.  `pre` is the path of the
enclosing directory relative to the trash root; `all` the full sibling
listing (for the sidecar test), `rest` the entries still to visit. -/
def walkChildren (pre : Path) (all : Dirents) : Dirents → List Path
  | [] => []
  | (n, e) :: rest =>
    let emit : List Path :=
      if hasSuf n metaSfx then []
      else if (match e with | .dir sub => hasNonMeta sub | .file _ => false) then []
      else if (getChild all (n ++ metaSfx)).isSome then [pre ++ [n]] else []
    emit ++ walkDescend (pre ++ [n]) e ++ walkChildren pre all rest

/-- Recurse into a directory entry (`filepath.Walk` descends even into
entries the callback chose not to report). -/
def walkDescend (pre : Path) : Entry → List Path
  | .file _ => []
  | .dir sub => walkChildren pre sub sub

end

/-- Model of `findTrashItems`: walk the trash tree and report the
trashed items (absolute paths).  A missing or non-directory trash root
yields no items (the walk error is swallowed). -/
def findTrashItems (fs : Entry) (trashDir : Path) : List Path :=
  match lookupFs fs trashDir with
  | some (.dir ch) => (walkChildren [] ch ch).map (trashDir ++ ·)
  | _ => []

/-- Model of `trash.GetMetadata`: read and parse the sidecar of an
item; fails when the sidecar is missing, is a directory, or does not
parse. -/
def GetMetadata (fs : Entry) (item : Path) : Option Metadata :=
  match lookupFs fs (sidecarPath item) with
  | some (.file (.metaJson m)) => some m
  | _ => none

/-! ## Lifecycle operations (`restore.Restore`, `Purge`, `Empty`) -/

/-- One iteration of the selection loop of `Restore`: keep the
matching item with the latest deletion time (strict `After` to displace
the current best, so the first of equal timestamps wins). -/
def pickStep (fs : Entry) (orig : Path) (best : Option (Path × Metadata)) (item : Path) :
    Option (Path × Metadata) :=
  match GetMetadata fs item with
  | none => best
  | some m =>
    if m.originalPath = orig then
      match best with
      | none => some (item, m)
      | some b => if m.deletedAt.after b.2.deletedAt then some (item, m) else best
    else best

/-- The selection loop of `Restore`. -/
def pickMatch (fs : Entry) (orig : Path) (items : List Path) : Option (Path × Metadata) :=
  items.foldl (pickStep fs orig) none

/-- Typed failures of `Restore` (the Go code returns `fmt.Errorf`
values with these meanings). -/
inductive RestoreErr where
  | notFound
  | alreadyExists
  | ioFailure
  deriving DecidableEq, Repr

/-- Model of `restore.Restore`: enumerate, select the latest item whose
recorded original path equals `orig`, refuse to overwrite an existing
destination, create missing parent directories, move the item back and
drop its sidecar (ignoring a sidecar-removal failure).  Errors are
returned before any filesystem mutation. -/
def Restore (fs : Entry) (trashDir : Path) (orig : Path) : Except RestoreErr Entry :=
  let items := findTrashItems fs trashDir
  match pickMatch fs orig items with
  | none => .error .notFound
  | some (item, _) =>
    if (lookupFs fs orig).isSome then .error .alreadyExists
    else
      match mkdirAllFs fs orig.dropLast with
      | none => .error .ioFailure
      | some fs1 =>
        match renameFs fs1 item orig with
        | none => .error .ioFailure
        | some fs2 => .ok ((removeF fs2 (sidecarPath item)).getD fs2)

/-- One iteration of the `Purge` loop on item `p`: with readable
metadata, delete item and sidecar when the recorded deletion time is
strictly before the cutoff; without readable metadata, fall back to the
item's filesystem modification time (the oracle `mt`, which `Purge`
never changes) — deleting the item but, as in the source, not its
sidecar. -/
def purgeStep (mt : Path → DateTime) (cutoff : DateTime) (fs : Entry) (p : Path) : Entry :=
  match GetMetadata fs p with
  | some m =>
    if m.deletedAt.before cutoff then
      let fs1 := removeAllFs fs p
      (removeF fs1 (sidecarPath p)).getD fs1
    else fs
  | none =>
    match lookupFs fs p with
    | none => fs
    | some _ => if (mt p).before cutoff then removeAllFs fs p else fs

/-- Model of `restore.Purge` with `cutoff = time.Now().AddDate(0,0,-days)`:
enumerate the trash once, then process the items in order. -/
def Purge (mt : Path → DateTime) (fs : Entry) (trashDir : Path) (cutoff : DateTime) : Entry :=
  (findTrashItems fs trashDir).foldl (purgeStep mt cutoff) fs

mutual

/-- The `cleanEmptyDirs` walk on one visited entry: a directory that is
empty when visited is removed (`os.Remove` succeeds on it); a
non-empty directory is kept and its children visited in turn.  Files
are untouched.  Returns `none` when the entry was removed. -/
def cleanEntry : Entry → Option Entry
  | .file c => some (.file c)
  | .dir ch =>
    match ch with
    | [] => none
    | _ :: _ => some (.dir (cleanChildren ch))

/-- Visit the children of a kept directory in listing order. -/
def cleanChildren : Dirents → Dirents
  | [] => []
  | (n, e) :: rest =>
    (match cleanEntry e with
     | some e' => [(n, e')]
     | none => []) ++ cleanChildren rest

end

/-- Model of `cleanEmptyDirs` applied to the trash root: the root
itself is never removed (the walk skips `path == dir`), its children
are visited top-down in a single pass. -/
def cleanEmptyDirs : Entry → Entry
  | .file c => .file c
  | .dir ch => .dir (cleanChildren ch)

/-- One deletion of the `Empty` loop: recursively delete the item, then
best-effort delete its sidecar. -/
def emptyStep (fs : Entry) (item : Path) : Entry :=
  let fs1 := removeAllFs fs item
  (removeF fs1 (sidecarPath item)).getD fs1

/-- Model of `restore.Empty`: without the exact confirmation phrase the
trash is untouched; with it, every enumerated item and its sidecar is
deleted, then `cleanEmptyDirs` runs over the trash root. -/
def Empty (fs : Entry) (trashDir : Path) (confirmed : Bool) : Entry :=
  if !confirmed then fs
  else
    let items := findTrashItems fs trashDir
    let fs' := items.foldl emptyStep fs
    match lookupFs fs' trashDir with
    | some e => (setAt fs' trashDir (cleanEmptyDirs e)).getD fs'
    | none => fs'

/-! ## The orchestrator (`cmd/rm.processPath`) -/

/-- The command-line options `processPath` consults. -/
structure Options where
  force : Bool
  recursive : Bool
  removeEmptyDirs : Bool
  interactive : Bool
  verbose : Bool

/-- Ambient inputs of `processPath`: the working directory (for
`filepath.Abs`), the repository-marker oracle of the classifier, and
the mover's environment. -/
structure ProcEnv where
  cwd : String
  gitGlob : String → Bool
  menv : MoveEnv

/-- Outcome of `processPath`: the error returned (if any), the
filesystem afterwards, and how many interactive prompts were issued. -/
structure ProcRes where
  err : Option String
  fs : Entry
  prompts : Nat

/-- Components of a cleaned absolute path string. -/
def toComps (s : String) : Path :=
  ((splitSlash s.data).filter (· ≠ [])).map fun l => (⟨l⟩ : String)

/-- Model of `processPath`.  `answers` are the lines `fmt.Scanln` would
read for successive prompts (an exhausted input reads the empty
string). -/
def processPath (cfg : Config) (env : ProcEnv) (opts : Options) (fs : Entry)
    (pathArg : String) (answers : List String) : ProcRes :=
  let absS := goAbs env.cwd pathArg
  let absP := toComps absS
  match lookupFs fs absP with
  | none =>
    if opts.force then ⟨none, fs, 0⟩ else ⟨some "No such file or directory", fs, 0⟩
  | some info =>
    let dirGate : Option String :=
      match info with
      | .dir ch =>
        if !opts.recursive then
          if opts.removeEmptyDirs then
            if ch.length > 0 then some "Directory not empty" else none
          else some "Is a directory"
        else none
      | .file _ => none
    match dirGate with
    | some msg => ⟨some msg, fs, 0⟩
    | none =>
      let st := Check cfg env.cwd env.gitGlob absS opts.recursive
      let afterProtect : List String → Nat → ProcRes := fun ans prompts =>
        if opts.interactive ∧ !opts.force then
          let resp := ans.headD ""
          if resp ≠ "y" ∧ resp ≠ "yes" then ⟨none, fs, prompts + 1⟩
          else
            let r := Move env.menv fs absP
            if r.2.1 then ⟨none, r.1, prompts + 1⟩
            else ⟨some "failed to move to trash", r.1, prompts + 1⟩
        else
          let r := Move env.menv fs absP
          if r.2.1 then ⟨none, r.1, prompts⟩
          else ⟨some "failed to move to trash", r.1, prompts⟩
      if st.prot then
        if cfg.protectedBehavior = "block" then
          ⟨some ("BLOCKED: " ++ absS ++ " Reason: " ++ st.reason), fs, 0⟩
        else if !opts.force then
          if answers.headD "" ≠ "yes I am sure" then ⟨some "aborted by user", fs, 1⟩
          else afterProtect answers.tail 1
        else
          ⟨some ("BLOCKED: " ++ absS ++ " is protected (" ++ st.reason ++
            "). Use interactive mode to confirm."), fs, 0⟩
      else afterProtect answers 0

/-! ## Concrete fixtures used by the claim theorems and witnesses -/

/-- A sample timestamp. -/
def ts1 : DateTime := ⟨2024, 5, 1, 10, 0, 0⟩

/-- An older sample timestamp. -/
def ts0 : DateTime := ⟨2024, 1, 1, 0, 0, 0⟩

/-- A newer sample timestamp. -/
def ts2 : DateTime := ⟨2024, 6, 1, 0, 0, 0⟩

/-- A purge cutoff between `ts0` and `ts2`. -/
def tsCut : DateTime := ⟨2024, 3, 1, 0, 0, 0⟩

/-- Mover environment: trash at `/trash`, host `H`, clock `ts1`, same
device. -/
def menv1 : MoveEnv := ⟨["trash"], "H", ts1, false⟩

/-- A filesystem with `/home/u/mydir/f.txt` and an empty trash root. -/
def fsDir : Entry := .dir [
  ("home", .dir [("u", .dir [("mydir", .dir [("f.txt", .file (.bytes "hello"))])])]),
  ("trash", .dir [])]

/-- A trash tree whose only content is a trashed non-empty directory
`d` (sidecar present) containing a plain file. -/
def fsTrashedDir : Entry := .dir [
  ("trash", .dir [("H", .dir [
    ("d", .dir [("f", .file (.bytes "x"))]),
    ("d.saferm-meta", .file (.metaJson ⟨["u", "d"], ts0, "H", true⟩))])])]

/-- A trash tree with three items: `a.txt` (old, corrupt sidecar),
`b.txt` (old, readable sidecar), `c.txt` (new, readable sidecar). -/
def fsPurge : Entry := .dir [
  ("trash", .dir [("H", .dir [
    ("a.txt", .file (.bytes "A")),
    ("a.txt.saferm-meta", .file (.corrupt "junk")),
    ("b.txt", .file (.bytes "B")),
    ("b.txt.saferm-meta", .file (.metaJson ⟨["x", "b.txt"], ts0, "H", false⟩)),
    ("c.txt", .file (.bytes "C")),
    ("c.txt.saferm-meta", .file (.metaJson ⟨["x", "c.txt"], ts2, "H", false⟩))])])]

/-- A trash tree holding one item `f` at scaffolding depth two
(`H/a/b/f`). -/
def fsEmptyScn : Entry := .dir [
  ("trash", .dir [("H", .dir [("a", .dir [("b", .dir [
    ("f", .file (.bytes "F")),
    ("f.saferm-meta", .file (.metaJson ⟨["q", "f"], ts0, "H", false⟩))])])])])]

/-- A filesystem where `/home/u/f.txt` exists again while the trash
already holds an entry at its computed destination
`trash/H/home/u/f.txt` (a prior deletion of the same path). -/
def fsCol : Entry := .dir [
  ("home", .dir [("u", .dir [("f.txt", .file (.bytes "second"))])]),
  ("trash", .dir [("H", .dir [("home", .dir [("u", .dir [
    ("f.txt", .file (.bytes "first")),
    ("f.txt.saferm-meta", .file (.metaJson ⟨["home", "u", "f.txt"], ts0, "H", false⟩))])])])])]

/-- A trash holding two generations of `/home/u/f.txt`: the original
trashed copy (old timestamp) and a timestamp-disambiguated newer one;
the original location is free. -/
def fsRest : Entry := .dir [
  ("home", .dir [("u", .dir [])]),
  ("trash", .dir [("H", .dir [
    ("f.txt", .file (.bytes "old")),
    ("f.txt.20240501-100000", .file (.bytes "new")),
    ("f.txt.20240501-100000.saferm-meta",
      .file (.metaJson ⟨["home", "u", "f.txt"], ts1, "H", false⟩)),
    ("f.txt.saferm-meta", .file (.metaJson ⟨["home", "u", "f.txt"], ts0, "H", false⟩))])])]

end SafeRm

namespace SafeRm

/-! # Lemma library

Frame lemmas relating `lookupFs` to the filesystem mutators, and the
path-divergence relation they are phrased with. -/

/-- Neither path is a prefix of the other: the filesystem subtrees at
the two paths are disjoint. -/
def diverge (p q : Path) : Prop :=
  ¬ p <+: q ∧ ¬ q <+: p

instance : ∀ p q : Path, Decidable (diverge p q) := fun p q => by
  unfold diverge; infer_instance

theorem diverge.symm {p q : Path} (h : diverge p q) : diverge q p :=
  ⟨h.2, h.1⟩

theorem diverge_cons {p q : Path} {n : String} (h : diverge p q) :
    diverge (n :: p) (n :: q) := by
  constructor
  · intro hc; exact h.1 (List.cons_prefix_cons.mp hc).2
  · intro hc; exact h.2 (List.cons_prefix_cons.mp hc).2

theorem diverge_cons_ne {p q : Path} {n m : String} (h : n ≠ m) :
    diverge (n :: p) (m :: q) := by
  constructor
  · intro hc; exact h (List.cons_prefix_cons.mp hc).1
  · intro hc; exact h ((List.cons_prefix_cons.mp hc).1).symm

theorem diverge_of_cons {p q : Path} {n : String}
    (h : diverge (n :: p) (n :: q)) : diverge p q := by
  constructor
  · intro hc; exact h.1 (List.cons_prefix_cons.mpr ⟨rfl, hc⟩)
  · intro hc; exact h.2 (List.cons_prefix_cons.mpr ⟨rfl, hc⟩)

theorem diverge_append {p q : Path} (a b : Path) (h : diverge p q) :
    diverge (p ++ a) (q ++ b) := by
  induction p generalizing q with
  | nil => exact absurd (List.nil_prefix) h.1
  | cons x p' ih =>
    cases q with
    | nil => exact absurd (List.nil_prefix) h.2
    | cons y q' =>
      by_cases hxy : x = y
      · subst hxy
        exact diverge_cons (ih (diverge_of_cons h))
      · exact diverge_cons_ne hxy

/-! ### Directory listing lemmas -/

@[simp] theorem lookupFs_nil (e : Entry) : lookupFs e [] = some e := by
  cases e <;> rfl

@[simp] theorem getChild_setChild_self (ch : Dirents) (n : String) (e : Entry) :
    getChild (setChild ch n e) n = some e := by
  induction ch with
  | nil => simp [setChild, getChild]
  | cons hd tl ih =>
    obtain ⟨m, x⟩ := hd
    by_cases h : m = n <;> simp [setChild, getChild, h, ih]

theorem getChild_setChild_ne (ch : Dirents) {n m : String} (e : Entry) (h : m ≠ n) :
    getChild (setChild ch n e) m = getChild ch m := by
  induction ch with
  | nil => simp [setChild, getChild, Ne.symm h]
  | cons hd tl ih =>
    obtain ⟨k, x⟩ := hd
    by_cases hk : k = n
    · subst hk; simp [setChild, getChild, Ne.symm h]
    · simp [setChild, getChild, hk, ih]

@[simp] theorem getChild_delChild_self (ch : Dirents) (n : String) :
    getChild (delChild ch n) n = none := by
  induction ch with
  | nil => simp [delChild, getChild]
  | cons hd tl ih =>
    obtain ⟨m, x⟩ := hd
    by_cases h : m = n
    · subst h; simpa [delChild, getChild] using ih
    · simpa [delChild, getChild, h] using ih

theorem getChild_delChild_ne (ch : Dirents) {n m : String} (h : m ≠ n) :
    getChild (delChild ch n) m = getChild ch m := by
  induction ch with
  | nil => simp [delChild, getChild]
  | cons hd tl ih =>
    obtain ⟨k, x⟩ := hd
    by_cases hk : k = n
    · subst hk; simpa [delChild, getChild, Ne.symm h] using ih
    · by_cases hm : k = m
      · subst hm; simp [delChild, getChild, hk]
      · simpa [delChild, getChild, hk, hm] using ih

/-! ### `eraseAt` frame lemmas -/

theorem lookupFs_eraseAt_self_cons (fs : Entry) (n : String) (rest : Path) :
    lookupFs (eraseAt fs (n :: rest)) (n :: rest) = none := by
  induction rest generalizing fs n with
  | nil =>
    cases fs with
    | file c => simp [eraseAt, lookupFs]
    | dir ch => simp [eraseAt, lookupFs]
  | cons m rests ih =>
    cases fs with
    | file c => simp [eraseAt, lookupFs]
    | dir ch =>
      simp only [eraseAt]
      cases hg : getChild ch n with
      | none => simp [lookupFs, hg]
      | some sub =>
        simp only [lookupFs, getChild_setChild_self]
        exact ih sub m

theorem lookupFs_eraseAt_self (fs : Entry) {p : Path} (hp : p ≠ []) :
    lookupFs (eraseAt fs p) p = none := by
  cases p with
  | nil => exact absurd rfl hp
  | cons n rest => exact lookupFs_eraseAt_self_cons fs n rest

theorem lookupFs_eraseAt_under_cons (fs : Entry) (n : String) (q tail : Path) :
    lookupFs (eraseAt fs (n :: q)) ((n :: q) ++ tail) = none := by
  induction q generalizing fs n tail with
  | nil =>
    cases fs with
    | file c => simp [eraseAt, lookupFs]
    | dir ch => simp [eraseAt, lookupFs]
  | cons m rests ih =>
    cases fs with
    | file c => simp [eraseAt, lookupFs]
    | dir ch =>
      simp only [eraseAt]
      cases hg : getChild ch n with
      | none => simp [lookupFs, hg]
      | some sub =>
        simp only [List.cons_append, lookupFs, getChild_setChild_self]
        exact ih sub m tail

theorem lookupFs_eraseAt_under (fs : Entry) {q p : Path} (hq : q ≠ []) (h : q <+: p) :
    lookupFs (eraseAt fs q) p = none := by
  obtain ⟨tail, rfl⟩ := h
  cases q with
  | nil => exact absurd rfl hq
  | cons n q' => exact lookupFs_eraseAt_under_cons fs n q' tail

theorem lookupFs_eraseAt_diverge (fs : Entry) {q p : Path} (h : diverge q p) :
    lookupFs (eraseAt fs q) p = lookupFs fs p := by
  induction q generalizing fs p with
  | nil => exact absurd (List.nil_prefix) h.1
  | cons n rest ih =>
    cases p with
    | nil => exact absurd (List.nil_prefix) h.2
    | cons m ps =>
      cases fs with
      | file c => cases rest <;> simp [eraseAt]
      | dir ch =>
        by_cases hnm : n = m
        · subst hnm
          have hdv : diverge rest ps := diverge_of_cons h
          cases rest with
          | nil => exact absurd (List.nil_prefix) hdv.1
          | cons r rs =>
            simp only [eraseAt]
            cases hg : getChild ch n with
            | none => rfl
            | some sub =>
              simp [lookupFs, getChild_setChild_self, hg, ih sub hdv]
        · cases rest with
          | nil => simp [eraseAt, lookupFs, getChild_delChild_ne ch (Ne.symm hnm)]
          | cons r rs =>
            simp only [eraseAt]
            cases hg : getChild ch n with
            | none => rfl
            | some sub =>
              simp [lookupFs, getChild_setChild_ne _ _ (Ne.symm hnm)]

theorem lookupFs_eraseAt_none (fs : Entry) {p : Path} (q : Path)
    (h : lookupFs fs p = none) : lookupFs (eraseAt fs q) p = none := by
  induction q generalizing fs p with
  | nil => simpa [eraseAt]
  | cons n rest ih =>
    cases fs with
    | file c => cases rest <;> simpa [eraseAt]
    | dir ch =>
      cases p with
      | nil => simp [lookupFs] at h
      | cons m ps =>
        by_cases hnm : n = m
        · subst hnm
          cases rest with
          | nil =>
            simp [eraseAt, lookupFs]
          | cons r rs =>
            simp only [eraseAt]
            cases hg : getChild ch n with
            | none => simp [lookupFs, hg] at h ⊢
            | some sub =>
              simp only [lookupFs, getChild_setChild_self]
              simp only [lookupFs, hg] at h
              exact ih sub h
        · cases rest with
          | nil =>
            simpa [eraseAt, lookupFs, getChild_delChild_ne ch (Ne.symm hnm)] using h
          | cons r rs =>
            simp only [eraseAt]
            cases hg : getChild ch n with
            | none => simpa [lookupFs, hg] using h
            | some sub =>
              simpa [lookupFs, getChild_setChild_ne _ _ (Ne.symm hnm)] using h

theorem lookupFs_eraseAt_throughFile (fs : Entry) {p q : Path} {c : FileContent}
    (h : lookupFs fs p = some (.file c)) (hpq : p <+: q) (hqp : ¬ q <+: p) :
    lookupFs (eraseAt fs q) p = some (.file c) := by
  induction p generalizing fs q with
  | nil =>
    simp only [lookupFs, Option.some.injEq] at h
    subst h
    cases q with
    | nil => simp [eraseAt, lookupFs]
    | cons n rest => cases rest <;> simp [eraseAt, lookupFs]
  | cons m ps ih =>
    obtain ⟨tail, rfl⟩ := hpq
    cases fs with
    | file c' => simp [lookupFs] at h
    | dir ch =>
      simp only [lookupFs] at h
      cases hg : getChild ch m with
      | none => rw [hg] at h; exact absurd h (by simp)
      | some sub =>
        rw [hg] at h
        cases hpt : ps ++ tail with
        | nil =>
          exact absurd (by simp [List.cons_append, hpt]) hqp
        | cons r rs =>
          have hps : ps <+: ps ++ tail := ps.prefix_append tail
          have hqp' : ¬ ps ++ tail <+: ps := by
            intro hc
            exact hqp (List.cons_prefix_cons.mpr ⟨rfl, hc⟩)
          simp only [List.cons_append, eraseAt, hpt, hg]
          rw [← hpt]
          simp only [lookupFs, getChild_setChild_self]
          exact ih sub h hps hqp'

theorem lookupFs_eraseAt_file (fs : Entry) {p : Path} (q : Path) {c : FileContent}
    (h : lookupFs fs p = some (.file c)) :
    lookupFs (eraseAt fs q) p = none ∨ lookupFs (eraseAt fs q) p = some (.file c) := by
  by_cases hqp : q <+: p
  · cases q with
    | nil => right; simpa [eraseAt]
    | cons n q' => left; exact lookupFs_eraseAt_under fs (by simp) hqp
  · by_cases hpq : p <+: q
    · right; exact lookupFs_eraseAt_throughFile fs h hpq hqp
    · right; rw [lookupFs_eraseAt_diverge fs ⟨hqp, hpq⟩]; exact h

theorem lookupFs_eraseAt_dir (fs : Entry) {p : Path} (q : Path) {ch : Dirents}
    (h : lookupFs fs p = some (.dir ch)) (hqp : ¬ q <+: p) :
    ∃ ch', lookupFs (eraseAt fs q) p = some (.dir ch') := by
  by_cases hpq : p <+: q
  · -- the erased path runs through (or into) the directory at `p`
    induction p generalizing fs q with
    | nil =>
      simp only [lookupFs, Option.some.injEq] at h
      subst h
      cases q with
      | nil => exact absurd List.nil_prefix hqp
      | cons n rest =>
        cases rest with
        | nil => exact ⟨delChild ch n, rfl⟩
        | cons r rs =>
          simp only [eraseAt]
          cases hg : getChild ch n with
          | none => exact ⟨ch, rfl⟩
          | some sub => exact ⟨setChild ch n (eraseAt sub (r :: rs)), rfl⟩
    | cons m ps ih =>
      obtain ⟨tail, rfl⟩ := hpq
      cases fs with
      | file c' => simp [lookupFs] at h
      | dir chf =>
        simp only [lookupFs] at h
        cases hg : getChild chf m with
        | none => rw [hg] at h; exact absurd h (by simp)
        | some sub =>
          rw [hg] at h
          cases hpt : ps ++ tail with
          | nil =>
            exact absurd (by simp [List.cons_append, hpt]) hqp
          | cons r rs =>
            have hps : ps <+: ps ++ tail := ps.prefix_append tail
            have hqp' : ¬ ps ++ tail <+: ps := by
              intro hc
              exact hqp (List.cons_prefix_cons.mpr ⟨rfl, hc⟩)
            simp only [List.cons_append, eraseAt, hpt, hg]
            rw [← hpt]
            obtain ⟨ch', hch'⟩ := ih sub (ps ++ tail) h hqp' hps
            refine ⟨ch', ?_⟩
            simpa [lookupFs, getChild_setChild_self] using hch'
  · by_cases hdq : q <+: p
    · exact absurd hdq hqp
    · exact ⟨ch, by rw [lookupFs_eraseAt_diverge fs ⟨hqp, hpq⟩]; exact h⟩

/-! ### `setAt` lemmas -/

theorem lookupFs_setAt_self {fs fs' : Entry} {p : Path} {e : Entry}
    (h : setAt fs p e = some fs') : lookupFs fs' p = some e := by
  induction p generalizing fs fs' with
  | nil => simp only [setAt, Option.some.injEq] at h; subst h; cases e <;> rfl
  | cons n rest ih =>
    cases fs with
    | file c => simp [setAt] at h
    | dir ch =>
      cases rest with
      | nil =>
        simp only [setAt, Option.some.injEq] at h
        subst h
        simp [lookupFs]
      | cons m rests =>
        simp only [setAt] at h
        cases hg : getChild ch n with
        | none => simp [hg] at h
        | some sub =>
          simp only [hg] at h
          cases hs : setAt sub (m :: rests) e with
          | none => simp [hs] at h
          | some sub' =>
            simp only [hs] at h
            simp only [Option.map_some', Option.some.injEq] at h
            subst h
            simpa [lookupFs, getChild_setChild_self] using ih hs

theorem lookupFs_setAt_diverge {fs fs' : Entry} {p : Path} {e : Entry} {r : Path}
    (h : setAt fs p e = some fs') (hd : diverge p r) :
    lookupFs fs' r = lookupFs fs r := by
  induction p generalizing fs fs' r with
  | nil => exact absurd List.nil_prefix hd.1
  | cons n rest ih =>
    cases r with
    | nil => exact absurd List.nil_prefix hd.2
    | cons m rs =>
      cases fs with
      | file c => simp [setAt] at h
      | dir ch =>
        by_cases hnm : n = m
        · subst hnm
          have hdv : diverge rest rs := diverge_of_cons hd
          cases rest with
          | nil => exact absurd List.nil_prefix hdv.1
          | cons r2 rs2 =>
            simp only [setAt] at h
            cases hg : getChild ch n with
            | none => simp [hg] at h
            | some sub =>
              simp only [hg] at h
              cases hs : setAt sub (r2 :: rs2) e with
              | none => simp [hs] at h
              | some sub' =>
                simp only [hs] at h
                simp only [Option.map_some', Option.some.injEq] at h
                subst h
                simp [lookupFs, getChild_setChild_self, hg, ih hs hdv]
        · cases rest with
          | nil =>
            simp only [setAt, Option.some.injEq] at h
            subst h
            simp [lookupFs, getChild_setChild_ne _ _ (by exact fun hc => hnm hc.symm)]
          | cons r2 rs2 =>
            simp only [setAt] at h
            cases hg : getChild ch n with
            | none => simp [hg] at h
            | some sub =>
              simp only [hg] at h
              cases hs : setAt sub (r2 :: rs2) e with
              | none => simp [hs] at h
              | some sub' =>
                simp only [hs] at h
                simp only [Option.map_some', Option.some.injEq] at h
                subst h
                simp [lookupFs, getChild_setChild_ne _ _ (by exact fun hc => hnm hc.symm)]

theorem lookupFs_setAt_append {fs fs' : Entry} {p : Path} {e : Entry}
    (h : setAt fs p e = some fs') (rel : Path) :
    lookupFs fs' (p ++ rel) = lookupFs e rel := by
  induction p generalizing fs fs' with
  | nil => simp only [setAt, Option.some.injEq] at h; subst h; simp
  | cons n rest ih =>
    cases fs with
    | file c => simp [setAt] at h
    | dir ch =>
      cases rest with
      | nil =>
        simp only [setAt, Option.some.injEq] at h
        subst h
        simp [lookupFs, getChild_setChild_self]
      | cons m rests =>
        simp only [setAt] at h
        cases hg : getChild ch n with
        | none => simp [hg] at h
        | some sub =>
          simp only [hg] at h
          cases hs : setAt sub (m :: rests) e with
          | none => simp [hs] at h
          | some sub' =>
            simp only [hs] at h
            simp only [Option.map_some', Option.some.injEq] at h
            subst h
            simpa [lookupFs, getChild_setChild_self] using ih hs

theorem setAt_isSome {fs : Entry} {p : Path} (e : Entry)
    (hch : ∀ q, q <+: p → q ≠ p → ∃ ch, lookupFs fs q = some (.dir ch)) :
    (setAt fs p e).isSome := by
  induction p generalizing fs with
  | nil => simp [setAt]
  | cons n rest ih =>
    obtain ⟨ch, hch0⟩ := hch [] List.nil_prefix (by simp)
    simp only [lookupFs, Option.some.injEq] at hch0
    subst hch0
    cases rest with
    | nil => simp [setAt]
    | cons m rests =>
      have hsub : ∃ sub, getChild ch n = some sub ∧ ∃ chs, sub = Entry.dir chs := by
        obtain ⟨ch1, hch1⟩ := hch [n] (by simp) (by simp)
        simp only [lookupFs] at hch1
        cases hg : getChild ch n with
        | none => simp [hg] at hch1
        | some sub =>
          simp only [hg] at hch1
          cases sub with
          | file c => simp [lookupFs] at hch1
          | dir chs => exact ⟨.dir chs, rfl, chs, rfl⟩
      obtain ⟨sub, hg, chs, rfl⟩ := hsub
      simp only [setAt, hg]
      have := @ih (Entry.dir chs) (fun q hq hqne => by
        obtain ⟨chq, hchq⟩ := hch (n :: q) (List.cons_prefix_cons.mpr ⟨rfl, hq⟩)
          (by intro hc; exact hqne (by injection hc))
        refine ⟨chq, ?_⟩
        simpa [lookupFs, hg] using hchq)
      cases hs : setAt (Entry.dir chs) (m :: rests) e with
      | none => simp [hs] at this
      | some s => simp

/-! ### `mkdirAllFs` lemmas -/

theorem lookupFs_mkdirAll_notPre {fs fs' : Entry} {q : Path}
    (h : mkdirAllFs fs q = some fs') {r : Path} (hr : ¬ r <+: q) :
    lookupFs fs' r = lookupFs fs r := by
  induction q generalizing fs fs' r with
  | nil =>
    cases fs with
    | file c => simp [mkdirAllFs] at h
    | dir ch => simp only [mkdirAllFs, Option.some.injEq] at h; subst h; rfl
  | cons n rest ih =>
    cases fs with
    | file c => simp [mkdirAllFs] at h
    | dir ch =>
      cases r with
      | nil => exact absurd List.nil_prefix hr
      | cons m rs =>
        by_cases hnm : n = m
        · subst hnm
          have hrs : ¬ rs <+: rest := by
            intro hc; exact hr (List.cons_prefix_cons.mpr ⟨rfl, hc⟩)
          simp only [mkdirAllFs] at h
          cases hg : getChild ch n with
          | none =>
            simp only [hg] at h
            cases hs : mkdirAllFs (.dir []) rest with
            | none => simp [hs] at h
            | some sub' =>
              simp only [hs] at h
              simp only [Option.map_some', Option.some.injEq] at h
              subst h
              have h2 := ih hs hrs
              simp only [lookupFs, getChild_setChild_self, hg]
              cases rs with
              | nil => exact absurd List.nil_prefix hrs
              | cons a b => rw [h2]; simp [lookupFs, getChild]
          | some sub =>
            simp only [hg] at h
            cases hs : mkdirAllFs sub rest with
            | none => simp [hs] at h
            | some sub' =>
              simp only [hs] at h
              simp only [Option.map_some', Option.some.injEq] at h
              subst h
              simp only [lookupFs, getChild_setChild_self, hg]
              exact ih hs hrs
        · simp only [mkdirAllFs] at h
          cases hg : getChild ch n with
          | none =>
            simp only [hg] at h
            cases hs : mkdirAllFs (.dir []) rest with
            | none => simp [hs] at h
            | some sub' =>
              simp only [hs] at h
              simp only [Option.map_some', Option.some.injEq] at h
              subst h
              simp [lookupFs, getChild_setChild_ne _ _ (fun hc => hnm hc.symm)]
          | some sub =>
            simp only [hg] at h
            cases hs : mkdirAllFs sub rest with
            | none => simp [hs] at h
            | some sub' =>
              simp only [hs] at h
              simp only [Option.map_some', Option.some.injEq] at h
              subst h
              simp [lookupFs, getChild_setChild_ne _ _ (fun hc => hnm hc.symm)]

theorem mkdirAll_chain {fs fs' : Entry} {q : Path}
    (h : mkdirAllFs fs q = some fs') :
    ∀ r, r <+: q → ∃ ch, lookupFs fs' r = some (.dir ch) := by
  induction q generalizing fs fs' with
  | nil =>
    cases fs with
    | file c => simp [mkdirAllFs] at h
    | dir ch =>
      simp only [mkdirAllFs, Option.some.injEq] at h
      subst h
      intro r hr
      have : r = [] := List.prefix_nil.mp hr
      subst this
      exact ⟨ch, rfl⟩
  | cons n rest ih =>
    cases fs with
    | file c => simp [mkdirAllFs] at h
    | dir ch =>
      simp only [mkdirAllFs] at h
      intro r hr
      have hstep : ∀ (sub sub' : Entry), mkdirAllFs sub rest = some sub' →
          ∀ r, r <+: (n :: rest) →
          ∃ chr, lookupFs (Entry.dir (setChild ch n sub')) r = some (.dir chr) := by
        intro sub sub' hs r hr
        cases r with
        | nil => exact ⟨setChild ch n sub', rfl⟩
        | cons m rs =>
          have hm : m = n ∧ rs <+: rest := by
            have := List.cons_prefix_cons.mp hr
            exact ⟨this.1, this.2⟩
          obtain ⟨rfl, hrs⟩ := hm
          obtain ⟨chr, hchr⟩ := ih hs rs hrs
          exact ⟨chr, by simpa [lookupFs, getChild_setChild_self] using hchr⟩
      cases hg : getChild ch n with
      | none =>
        simp only [hg] at h
        cases hs : mkdirAllFs (.dir []) rest with
        | none => simp [hs] at h
        | some sub' =>
          simp only [hs] at h
          simp only [Option.map_some', Option.some.injEq] at h
          subst h
          exact hstep _ _ hs r hr
      | some sub =>
        simp only [hg] at h
        cases hs : mkdirAllFs sub rest with
        | none => simp [hs] at h
        | some sub' =>
          simp only [hs] at h
          simp only [Option.map_some', Option.some.injEq] at h
          subst h
          exact hstep _ _ hs r hr

theorem mkdirAll_none_of_file {fs : Entry} {r : Path} {c : FileContent}
    (hf : lookupFs fs r = some (.file c)) {q : Path} (hrq : r <+: q) :
    mkdirAllFs fs q = none := by
  induction r generalizing fs q with
  | nil =>
    simp only [lookupFs, Option.some.injEq] at hf
    subst hf
    cases q <;> simp [mkdirAllFs]
  | cons m rs ih =>
    obtain ⟨tail, rfl⟩ := hrq
    cases fs with
    | file c' => simp [lookupFs] at hf
    | dir ch =>
      simp only [lookupFs] at hf
      cases hg : getChild ch m with
      | none => simp [hg] at hf
      | some sub =>
        simp only [hg] at hf
        simp only [List.cons_append, mkdirAllFs, hg, List.append_eq]
        rw [ih hf (rs.prefix_append tail)]
        rfl

theorem lookupFs_mkdirAll_file {fs fs' : Entry} {q : Path}
    (h : mkdirAllFs fs q = some fs') {r : Path} {c : FileContent}
    (hf : lookupFs fs r = some (.file c)) :
    lookupFs fs' r = some (.file c) := by
  by_cases hrq : r <+: q
  · rw [mkdirAll_none_of_file hf hrq] at h; exact absurd h (by simp)
  · rw [lookupFs_mkdirAll_notPre h hrq]; exact hf

/-! ### `writeF` and `removeF` lemmas -/

theorem lookupFs_writeF_self {fs fs' : Entry} {p : Path} {c : FileContent}
    (h : writeF fs p c = some fs') : lookupFs fs' p = some (.file c) := by
  induction p generalizing fs fs' with
  | nil => simp [writeF] at h
  | cons n rest ih =>
    cases fs with
    | file c' => simp [writeF] at h
    | dir ch =>
      cases rest with
      | nil =>
        simp only [writeF] at h
        cases hg : getChild ch n with
        | none =>
          simp only [hg] at h
          simp only [Option.some.injEq] at h
          subst h
          simp [lookupFs, getChild_setChild_self]
        | some sub =>
          simp only [hg] at h
          cases sub with
          | file c2 =>
            simp only [Option.some.injEq] at h
            subst h
            simp [lookupFs, getChild_setChild_self]
          | dir ch2 => exact absurd h (by simp)
      | cons m rests =>
        simp only [writeF] at h
        cases hg : getChild ch n with
        | none => simp [hg] at h
        | some sub =>
          simp only [hg] at h
          cases hs : writeF sub (m :: rests) c with
          | none => simp [hs] at h
          | some sub' =>
            simp only [hs] at h
            simp only [Option.map_some', Option.some.injEq] at h
            subst h
            simpa [lookupFs, getChild_setChild_self] using ih hs

theorem lookupFs_writeF_diverge {fs fs' : Entry} {p : Path} {c : FileContent} {r : Path}
    (h : writeF fs p c = some fs') (hd : diverge p r) :
    lookupFs fs' r = lookupFs fs r := by
  induction p generalizing fs fs' r with
  | nil => exact absurd List.nil_prefix hd.1
  | cons n rest ih =>
    cases r with
    | nil => exact absurd List.nil_prefix hd.2
    | cons m rs =>
      cases fs with
      | file c' => simp [writeF] at h
      | dir ch =>
        by_cases hnm : n = m
        · subst hnm
          have hdv : diverge rest rs := diverge_of_cons hd
          cases rest with
          | nil => exact absurd List.nil_prefix hdv.1
          | cons r2 rs2 =>
            simp only [writeF] at h
            cases hg : getChild ch n with
            | none => simp [hg] at h
            | some sub =>
              simp only [hg] at h
              cases hs : writeF sub (r2 :: rs2) c with
              | none => simp [hs] at h
              | some sub' =>
                simp only [hs] at h
                simp only [Option.map_some', Option.some.injEq] at h
                subst h
                simp [lookupFs, getChild_setChild_self, hg, ih hs hdv]
        · cases rest with
          | nil =>
            simp only [writeF] at h
            cases hg : getChild ch n with
            | none =>
              simp only [hg] at h
              simp only [Option.some.injEq] at h
              subst h
              simp [lookupFs, getChild_setChild_ne _ _ (fun hc => hnm hc.symm)]
            | some sub =>
              simp only [hg] at h
              cases sub with
              | file c2 =>
                simp only [Option.some.injEq] at h
                subst h
                simp [lookupFs, getChild_setChild_ne _ _ (fun hc => hnm hc.symm)]
              | dir ch2 => exact absurd h (by simp)
          | cons r2 rs2 =>
            simp only [writeF] at h
            cases hg : getChild ch n with
            | none => simp [hg] at h
            | some sub =>
              simp only [hg] at h
              cases hs : writeF sub (r2 :: rs2) c with
              | none => simp [hs] at h
              | some sub' =>
                simp only [hs] at h
                simp only [Option.map_some', Option.some.injEq] at h
                subst h
                simp [lookupFs, getChild_setChild_ne _ _ (fun hc => hnm hc.symm)]

theorem writeF_getD_diverge (fs : Entry) (p : Path) (c : FileContent) {r : Path}
    (hd : diverge p r) :
    lookupFs ((writeF fs p c).getD fs) r = lookupFs fs r := by
  cases h : writeF fs p c with
  | none => rfl
  | some fs' => exact lookupFs_writeF_diverge h hd

theorem removeF_eq_eraseAt {fs fs' : Entry} {p : Path}
    (h : removeF fs p = some fs') : fs' = eraseAt fs p := by
  induction p generalizing fs fs' with
  | nil => simp [removeF] at h
  | cons n rest ih =>
    cases fs with
    | file c => simp [removeF] at h
    | dir ch =>
      cases rest with
      | nil =>
        simp only [removeF] at h
        cases hg : getChild ch n with
        | none => simp [hg] at h
        | some sub =>
          simp only [hg] at h
          cases sub with
          | file c =>
            simp only [Option.some.injEq] at h
            subst h
            simp [eraseAt]
          | dir ch2 =>
            cases ch2 with
            | nil =>
              simp only [Option.some.injEq] at h
              subst h
              simp [eraseAt]
            | cons a b => exact absurd h (by simp)
      | cons m rests =>
        simp only [removeF] at h
        cases hg : getChild ch n with
        | none => simp [hg] at h
        | some sub =>
          simp only [hg] at h
          cases hs : removeF sub (m :: rests) with
          | none => simp [hs] at h
          | some sub' =>
            simp only [hs] at h
            simp only [Option.map_some', Option.some.injEq] at h
            subst h
            simp [eraseAt, hg, ih hs]

theorem removeF_getD_lookup (fs : Entry) (p : Path) (r : Path) :
    lookupFs ((removeF fs p).getD fs) r = lookupFs (eraseAt fs p) r ∨
    ((removeF fs p) = none ∧ lookupFs ((removeF fs p).getD fs) r = lookupFs fs r) := by
  cases h : removeF fs p with
  | none => exact Or.inr ⟨rfl, rfl⟩
  | some fs' => exact Or.inl (by rw [removeF_eq_eraseAt h]; rfl)

theorem removeF_isSome_file {fs : Entry} {p : Path} {c : FileContent}
    (h : lookupFs fs p = some (.file c)) (hp : p ≠ []) :
    (removeF fs p).isSome := by
  induction p generalizing fs with
  | nil => exact absurd rfl hp
  | cons n rest ih =>
    cases fs with
    | file c' => simp [lookupFs] at h
    | dir ch =>
      simp only [lookupFs] at h
      cases hg : getChild ch n with
      | none => simp [hg] at h
      | some sub =>
        simp only [hg] at h
        cases rest with
        | nil =>
          simp only [lookupFs, Option.some.injEq] at h
          subst h
          simp [removeF, hg]
        | cons m rests =>
          have := @ih sub h (by simp)
          simp only [removeF, hg]
          cases hs : removeF sub (m :: rests) with
          | none => simp [hs] at this
          | some s => simp

/-! ### `appendLast` and sidecar path lemmas -/

theorem appendLast_concat (pre : Path) (n : String) (s : String) :
    appendLast (pre ++ [n]) s = pre ++ [n ++ s] := by
  induction pre with
  | nil => simp [appendLast]
  | cons a rest ih =>
    cases h : rest ++ [n] with
    | nil => exact absurd h (by simp)
    | cons b bs =>
      simp only [List.cons_append, appendLast, h]
      rw [← h, ih]

theorem dropLast_appendLast (pre : Path) (n : String) (s : String) :
    (appendLast (pre ++ [n]) s).dropLast = pre := by
  rw [appendLast_concat]
  simp

theorem string_ne_append_of_ne_empty (n m : String) (hm : m ≠ "") : n ≠ n ++ m := by
  intro h
  apply hm
  have : n.data = n.data ++ m.data := by
    conv_lhs => rw [h]
    rfl
  have h2 : m.data = [] := by
    have := congrArg List.length this
    simp at this
    exact List.length_eq_zero.mp this
  cases m
  simp at h2
  simp [h2]

theorem diverge_concat_ne {pre : Path} {n m : String} (h : n ≠ m) :
    diverge (pre ++ [n]) (pre ++ [m]) := by
  induction pre with
  | nil => exact diverge_cons_ne h
  | cons a rest ih => exact diverge_cons ih

theorem diverge_sidecar (pre : Path) (n : String) :
    diverge (pre ++ [n]) (sidecarPath (pre ++ [n])) := by
  unfold sidecarPath
  rw [appendLast_concat]
  exact diverge_concat_ne (string_ne_append_of_ne_empty n metaSfx (by decide))

/-! ### Purge fold lemmas -/

/-- Full disjointness of two trashed items and their sidecars. -/
def pairRel (p q : Path) : Prop :=
  diverge p q ∧ diverge (sidecarPath p) q ∧ diverge p (sidecarPath q) ∧
    diverge (sidecarPath p) (sidecarPath q)

instance : ∀ p q : Path, Decidable (pairRel p q) := fun p q => by
  unfold pairRel; infer_instance

theorem GetMetadata_some_inv {fs : Entry} {p : Path} {m : Metadata}
    (h : GetMetadata fs p = some m) :
    lookupFs fs (sidecarPath p) = some (.file (.metaJson m)) := by
  unfold GetMetadata at h
  split at h
  · next m' heq =>
    simp only [Option.some.injEq] at h
    subst h
    exact heq
  · exact absurd h (by simp)

theorem GetMetadata_congr {fs fs' : Entry} {p : Path}
    (h : lookupFs fs' (sidecarPath p) = lookupFs fs (sidecarPath p)) :
    GetMetadata fs' p = GetMetadata fs p := by
  unfold GetMetadata
  rw [h]

theorem purgeStep_frame (mt : Path → DateTime) (cut : DateTime) (fs : Entry) (j : Path)
    {r : Path} (h1 : diverge j r) (h2 : diverge (sidecarPath j) r) :
    lookupFs (purgeStep mt cut fs j) r = lookupFs fs r := by
  unfold purgeStep
  cases hm : GetMetadata fs j with
  | some m =>
    by_cases hb : m.deletedAt.before cut
    · simp only [hb, if_true]
      cases hr : removeF (removeAllFs fs j) (sidecarPath j) with
      | none =>
        simp only [Option.getD_none]
        exact lookupFs_eraseAt_diverge fs h1
      | some fs2 =>
        simp only [Option.getD_some]
        rw [removeF_eq_eraseAt hr]
        rw [lookupFs_eraseAt_diverge _ h2]
        exact lookupFs_eraseAt_diverge fs h1
    · simp [hb]
  | none =>
    cases hl : lookupFs fs j with
    | none => rfl
    | some e =>
      by_cases hb : (mt j).before cut
      · simp only [hb, if_true]
        exact lookupFs_eraseAt_diverge fs h1
      · simp [hb]

theorem purge_foldl_frame (mt : Path → DateTime) (cut : DateTime) :
    ∀ (l : List Path) (fs0 : Entry) (r : Path),
      (∀ q ∈ l, diverge q r ∧ diverge (sidecarPath q) r) →
      lookupFs (l.foldl (purgeStep mt cut) fs0) r = lookupFs fs0 r := by
  intro l
  induction l with
  | nil => intro fs0 r _; rfl
  | cons j rest ih =>
    intro fs0 r hq
    have hj := hq j (by simp)
    simp only [List.foldl_cons]
    rw [ih (purgeStep mt cut fs0 j) r (fun q hmem => hq q (by simp [hmem]))]
    exact purgeStep_frame mt cut fs0 j hj.1 hj.2

/-- Effect of one purge iteration on the item it processes. -/
theorem purgeStep_self (mt : Path → DateTime) (cut : DateTime) (fs : Entry)
    {j : Path} {q : Path} {n : String} (hj : j = q ++ [n]) :
    (∀ m, GetMetadata fs j = some m → m.deletedAt.before cut = true →
      lookupFs (purgeStep mt cut fs j) j = none ∧
      lookupFs (purgeStep mt cut fs j) (sidecarPath j) = none) ∧
    (∀ m, GetMetadata fs j = some m → m.deletedAt.before cut = false →
      purgeStep mt cut fs j = fs) ∧
    (GetMetadata fs j = none → (mt j).before cut = true →
      lookupFs (purgeStep mt cut fs j) j = none ∧
      lookupFs (purgeStep mt cut fs j) (sidecarPath j) = lookupFs fs (sidecarPath j)) ∧
    (GetMetadata fs j = none → (mt j).before cut = false →
      purgeStep mt cut fs j = fs) := by
  have hdvs : diverge j (sidecarPath j) := hj ▸ diverge_sidecar q n
  have hjne : j ≠ [] := by subst hj; simp
  refine ⟨?_, ?_, ?_, ?_⟩
  · intro m hm hb
    have hside := GetMetadata_some_inv hm
    unfold purgeStep
    rw [hm]
    simp only [hb, if_true]
    have hside1 : lookupFs (removeAllFs fs j) (sidecarPath j) =
        some (.file (.metaJson m)) := by
      unfold removeAllFs
      rw [lookupFs_eraseAt_diverge fs hdvs]
      exact hside
    have hsne : sidecarPath j ≠ [] := by
      subst hj; rw [sidecarPath, appendLast_concat]; simp
    have hrs := removeF_isSome_file hside1 hsne
    cases hr : removeF (removeAllFs fs j) (sidecarPath j) with
    | none => rw [hr] at hrs; simp at hrs
    | some fs2 =>
      simp only [Option.getD_some]
      rw [removeF_eq_eraseAt hr]
      constructor
      · rw [lookupFs_eraseAt_diverge _ hdvs.symm]
        exact lookupFs_eraseAt_self fs hjne
      · exact lookupFs_eraseAt_self _ hsne
  · intro m hm hb
    unfold purgeStep
    rw [hm]
    simp [hb]
  · intro hm hb
    unfold purgeStep
    rw [hm]
    cases hl : lookupFs fs j with
    | none =>
      exact ⟨hl, rfl⟩
    | some e =>
      simp only [hb, if_true]
      exact ⟨lookupFs_eraseAt_self fs hjne,
        lookupFs_eraseAt_diverge fs hdvs⟩
  · intro hm hb
    unfold purgeStep
    rw [hm]
    cases hl : lookupFs fs j with
    | none => rfl
    | some e => simp [hb]

theorem purge_fold_spec (mt : Path → DateTime) (cut : DateTime) :
    ∀ (l : List Path) (fs0 : Entry),
      l.Pairwise pairRel →
      (∀ p ∈ l, ∃ q n, p = q ++ [n]) →
      ∀ p ∈ l,
        (∀ m, GetMetadata fs0 p = some m → m.deletedAt.before cut = true →
          lookupFs (l.foldl (purgeStep mt cut) fs0) p = none ∧
          lookupFs (l.foldl (purgeStep mt cut) fs0) (sidecarPath p) = none) ∧
        (∀ m, GetMetadata fs0 p = some m → m.deletedAt.before cut = false →
          lookupFs (l.foldl (purgeStep mt cut) fs0) p = lookupFs fs0 p ∧
          lookupFs (l.foldl (purgeStep mt cut) fs0) (sidecarPath p) =
            lookupFs fs0 (sidecarPath p)) ∧
        (GetMetadata fs0 p = none → (mt p).before cut = true →
          lookupFs (l.foldl (purgeStep mt cut) fs0) p = none ∧
          lookupFs (l.foldl (purgeStep mt cut) fs0) (sidecarPath p) =
            lookupFs fs0 (sidecarPath p)) ∧
        (GetMetadata fs0 p = none → (mt p).before cut = false →
          lookupFs (l.foldl (purgeStep mt cut) fs0) p = lookupFs fs0 p ∧
          lookupFs (l.foldl (purgeStep mt cut) fs0) (sidecarPath p) =
            lookupFs fs0 (sidecarPath p)) := by
  intro l
  induction l with
  | nil => intro fs0 _ _ p hp; simp at hp
  | cons j rest ih =>
    intro fs0 hpw hform p hp
    have hpwj := List.pairwise_cons.mp hpw
    simp only [List.foldl_cons]
    rcases List.mem_cons.mp hp with rfl | hprest
    · -- `p` is the head: compute its own step, then the tail only
      -- touches paths disjoint from `p` and its sidecar.
      obtain ⟨q, n, hj⟩ := hform p (by simp)
      have hstep := purgeStep_self mt cut fs0 hj
      have hframe : ∀ r, (∀ k ∈ rest, diverge k r ∧ diverge (sidecarPath k) r) →
          lookupFs (rest.foldl (purgeStep mt cut) (purgeStep mt cut fs0 p)) r =
          lookupFs (purgeStep mt cut fs0 p) r :=
        fun r hk => purge_foldl_frame mt cut rest _ r hk
      have hfrp : ∀ k ∈ rest, diverge k p ∧ diverge (sidecarPath k) p := by
        intro k hk
        have := hpwj.1 k hk
        exact ⟨this.1.symm, this.2.2.1.symm⟩
      have hfrs : ∀ k ∈ rest, diverge k (sidecarPath p) ∧
          diverge (sidecarPath k) (sidecarPath p) := by
        intro k hk
        have := hpwj.1 k hk
        exact ⟨this.2.1.symm, this.2.2.2.symm⟩
      refine ⟨?_, ?_, ?_, ?_⟩
      · intro m hm hb
        obtain ⟨h1, h2⟩ := hstep.1 m hm hb
        exact ⟨by rw [hframe p hfrp]; exact h1, by rw [hframe _ hfrs]; exact h2⟩
      · intro m hm hb
        have heq := hstep.2.1 m hm hb
        exact ⟨by rw [hframe p hfrp, heq], by rw [hframe _ hfrs, heq]⟩
      · intro hm hb
        obtain ⟨h1, h2⟩ := hstep.2.2.1 hm hb
        exact ⟨by rw [hframe p hfrp]; exact h1, by rw [hframe _ hfrs]; exact h2⟩
      · intro hm hb
        have heq := hstep.2.2.2 hm hb
        exact ⟨by rw [hframe p hfrp, heq], by rw [hframe _ hfrs, heq]⟩
    · -- `p` is in the tail: the head's step does not touch `p` or its
      -- sidecar, so the tail induction applies verbatim.
      have hrel := hpwj.1 p hprest
      have hp1 : lookupFs (purgeStep mt cut fs0 j) p = lookupFs fs0 p :=
        purgeStep_frame mt cut fs0 j hrel.1 hrel.2.1
      have hp2 : lookupFs (purgeStep mt cut fs0 j) (sidecarPath p) =
          lookupFs fs0 (sidecarPath p) :=
        purgeStep_frame mt cut fs0 j hrel.2.2.1 hrel.2.2.2
      have hmeta : GetMetadata (purgeStep mt cut fs0 j) p = GetMetadata fs0 p :=
        GetMetadata_congr hp2
      have := ih (purgeStep mt cut fs0 j) hpwj.2
        (fun x hx => hform x (by simp [hx])) p hprest
      refine ⟨?_, ?_, ?_, ?_⟩
      · intro m hm hb
        exact this.1 m (by rw [hmeta]; exact hm) hb
      · intro m hm hb
        obtain ⟨h1, h2⟩ := this.2.1 m (by rw [hmeta]; exact hm) hb
        exact ⟨by rw [h1]; exact hp1, by rw [h2]; exact hp2⟩
      · intro hm hb
        obtain ⟨h1, h2⟩ := this.2.2.1 (by rw [hmeta]; exact hm) hb
        exact ⟨h1, by rw [h2]; exact hp2⟩
      · intro hm hb
        obtain ⟨h1, h2⟩ := this.2.2.2 (by rw [hmeta]; exact hm) hb
        exact ⟨by rw [h1]; exact hp1, by rw [h2]; exact hp2⟩

/-! ### Well-formed trees and `cleanEmptyDirs` lemmas -/

/-- Listing names are pairwise distinct. -/
def namesNodupB (ch : Dirents) : Bool :=
  decide (ch.map Prod.fst).Nodup

mutual

/-- A well-formed tree: every directory listing has distinct names
(true of every real filesystem). -/
def Entry.wfB : Entry → Bool
  | .file _ => true
  | .dir ch => namesNodupB ch && childrenWf ch

/-- All entries of a listing are well formed. -/
def childrenWf : Dirents → Bool
  | [] => true
  | (_, e) :: rest => Entry.wfB e && childrenWf rest

end

theorem childrenWf_iff {ch : Dirents} :
    childrenWf ch = true ↔ ∀ p ∈ ch, Entry.wfB p.2 = true := by
  induction ch with
  | nil => simp [childrenWf]
  | cons hd tl ih =>
    obtain ⟨n, e⟩ := hd
    simp [childrenWf, ih]

theorem getChild_wf {ch : Dirents} {n : String} {sub : Entry}
    (hwf : Entry.wfB (.dir ch) = true) (hg : getChild ch n = some sub) :
    Entry.wfB sub = true := by
  simp only [Entry.wfB, Bool.and_eq_true] at hwf
  have hmem : (n, sub) ∈ ch := by
    clear hwf
    induction ch with
    | nil => simp [getChild] at hg
    | cons hd tl ih =>
      obtain ⟨m, x⟩ := hd
      by_cases hmn : m = n
      · subst hmn
        simp only [getChild, if_true] at hg
        simp only [Option.some.injEq] at hg
        subst hg
        simp
      · simp only [getChild, hmn, if_false] at hg
        simp [ih hg]
  exact childrenWf_iff.mp hwf.2 _ hmem

theorem wf_lookup {g : Entry} {rel : Path} {e : Entry}
    (hwf : Entry.wfB g = true) (h : lookupFs g rel = some e) :
    Entry.wfB e = true := by
  induction rel generalizing g with
  | nil => simp only [lookupFs, Option.some.injEq] at h; subst h; exact hwf
  | cons n rest ih =>
    cases g with
    | file c => simp [lookupFs] at h
    | dir ch =>
      simp only [lookupFs] at h
      cases hg : getChild ch n with
      | none => simp [hg] at h
      | some sub =>
        simp only [hg] at h
        exact ih (getChild_wf hwf hg) h

theorem getChild_none_of_notMem {ch : Dirents} {n : String}
    (h : n ∉ ch.map Prod.fst) : getChild ch n = none := by
  induction ch with
  | nil => rfl
  | cons hd tl ih =>
    obtain ⟨m, x⟩ := hd
    simp only [List.map_cons, List.mem_cons] at h
    push_neg at h
    have hmn : m ≠ n := fun hc => h.1 hc.symm
    simp only [getChild, hmn, if_false]
    exact ih h.2

theorem getChild_cleanChildren_notMem {ch : Dirents} {n : String}
    (h : n ∉ ch.map Prod.fst) : getChild (cleanChildren ch) n = none := by
  induction ch with
  | nil => rfl
  | cons hd tl ih =>
    obtain ⟨m, x⟩ := hd
    simp only [List.map_cons, List.mem_cons] at h
    push_neg at h
    have hmn : m ≠ n := fun hc => h.1 hc.symm
    simp only [cleanChildren]
    cases hc : cleanEntry x with
    | none => simpa using ih h.2
    | some x' =>
      simp only [List.singleton_append, getChild, hmn, if_false]
      exact ih h.2

theorem getChild_cleanChildren_none {ch : Dirents} {n : String}
    (h : getChild ch n = none) : getChild (cleanChildren ch) n = none := by
  induction ch with
  | nil => rfl
  | cons hd tl ih =>
    obtain ⟨m, x⟩ := hd
    by_cases hmn : m = n
    · subst hmn; simp [getChild] at h
    · simp only [getChild, hmn, if_false] at h
      simp only [cleanChildren]
      cases hc : cleanEntry x with
      | none => simpa using ih h
      | some x' =>
        simp only [List.singleton_append, getChild, hmn, if_false]
        exact ih h

theorem getChild_cleanChildren {ch : Dirents} (hnd : namesNodupB ch = true) (n : String) :
    getChild (cleanChildren ch) n = (getChild ch n).bind cleanEntry := by
  induction ch with
  | nil => rfl
  | cons hd tl ih =>
    obtain ⟨m, x⟩ := hd
    simp only [namesNodupB, List.map_cons, decide_eq_true_eq, List.nodup_cons] at hnd
    by_cases hmn : m = n
    · subst hmn
      cases hc : cleanEntry x with
      | none =>
        simp only [cleanChildren, hc, List.nil_append]
        rw [getChild_cleanChildren_notMem hnd.1]
        simp [getChild, hc]
      | some x' =>
        simp only [cleanChildren, hc, List.singleton_append]
        simp [getChild, hc]
    · simp only [cleanChildren, getChild, hmn, if_false]
      have hnd2 : namesNodupB tl = true := by
        simp [namesNodupB, hnd.2]
      cases hc : cleanEntry x with
      | none => simpa using ih hnd2
      | some x' =>
        simp only [List.singleton_append, getChild, hmn, if_false]
        exact ih hnd2

theorem clean_lookup_none {g : Entry} {rel : Path}
    (hwf : Entry.wfB g = true) (h : lookupFs g rel = none) :
    lookupFs (cleanEmptyDirs g) rel = none := by
  cases rel with
  | nil => simp [lookupFs] at h
  | cons n rest =>
    cases g with
    | file c => simp [cleanEmptyDirs, lookupFs]
    | dir ch =>
      have hnd : namesNodupB ch = true := by
        simp only [Entry.wfB, Bool.and_eq_true] at hwf
        exact hwf.1
      simp only [lookupFs] at h
      simp only [cleanEmptyDirs, lookupFs, getChild_cleanChildren hnd]
      cases hg : getChild ch n with
      | none => rfl
      | some sub =>
        simp only [hg] at h
        have hsubwf := getChild_wf hwf hg
        simp only [Option.some_bind]
        cases sub with
        | file c =>
          cases rest with
          | nil => simp [lookupFs] at h
          | cons a b => simp [cleanEntry, lookupFs]
        | dir ch2 =>
          cases ch2 with
          | nil => simp [cleanEntry]
          | cons hd2 tl2 =>
            simp only [cleanEntry]
            have := @clean_lookup_none (.dir (hd2 :: tl2)) rest hsubwf h
            simpa [cleanEmptyDirs] using this

theorem clean_prune_empty {g : Entry} {rel : Path}
    (hwf : Entry.wfB g = true) (hne : rel ≠ []) (h : lookupFs g rel = some (.dir [])) :
    lookupFs (cleanEmptyDirs g) rel = none := by
  cases rel with
  | nil => exact absurd rfl hne
  | cons n rest =>
    cases g with
    | file c => simp [lookupFs] at h
    | dir ch =>
      have hnd : namesNodupB ch = true := by
        simp only [Entry.wfB, Bool.and_eq_true] at hwf
        exact hwf.1
      simp only [lookupFs] at h
      simp only [cleanEmptyDirs, lookupFs, getChild_cleanChildren hnd]
      cases hg : getChild ch n with
      | none => simp [hg] at h
      | some sub =>
        simp only [hg] at h
        have hsubwf := getChild_wf hwf hg
        simp only [Option.some_bind]
        cases sub with
        | file c =>
          cases rest with
          | nil => simp [lookupFs] at h
          | cons a b => simp [lookupFs] at h
        | dir ch2 =>
          cases rest with
          | nil =>
            simp only [lookupFs, Option.some.injEq] at h
            injection h with hh
            subst hh
            simp [cleanEntry, lookupFs]
          | cons a b =>
            cases ch2 with
            | nil => simp [lookupFs, getChild] at h
            | cons hd2 tl2 =>
              simp only [cleanEntry]
              have := @clean_prune_empty (.dir (hd2 :: tl2)) (a :: b)
                hsubwf (by simp) h
              simpa [cleanEmptyDirs] using this

theorem clean_keep_nonempty {g : Entry} {rel : Path} {ch : Dirents}
    (hwf : Entry.wfB g = true) (h : lookupFs g rel = some (.dir ch)) (hch : ch ≠ []) :
    ∃ ch', lookupFs (cleanEmptyDirs g) rel = some (.dir ch') := by
  cases rel with
  | nil =>
    simp only [lookupFs, Option.some.injEq] at h
    subst h
    exact ⟨cleanChildren ch, by simp [cleanEmptyDirs, lookupFs]⟩
  | cons n rest =>
    cases g with
    | file c => simp [lookupFs] at h
    | dir chf =>
      have hnd : namesNodupB chf = true := by
        simp only [Entry.wfB, Bool.and_eq_true] at hwf
        exact hwf.1
      simp only [lookupFs] at h
      simp only [cleanEmptyDirs, lookupFs, getChild_cleanChildren hnd]
      cases hg : getChild chf n with
      | none => simp [hg] at h
      | some sub =>
        simp only [hg] at h
        have hsubwf := getChild_wf hwf hg
        simp only [Option.some_bind]
        cases sub with
        | file c =>
          cases rest with
          | nil => simp [lookupFs] at h
          | cons a b => simp [lookupFs] at h
        | dir ch2 =>
          cases rest with
          | nil =>
            simp only [lookupFs, Option.some.injEq] at h
            have : ch2 = ch := by injection h
            subst this
            cases ch2 with
            | nil => exact absurd rfl hch
            | cons hd2 tl2 =>
              exact ⟨cleanChildren (hd2 :: tl2), by simp [cleanEntry, lookupFs]⟩
          | cons a b =>
            cases ch2 with
            | nil => simp [lookupFs, getChild] at h
            | cons hd2 tl2 =>
              simp only [cleanEntry]
              obtain ⟨ch', hch'⟩ := @clean_keep_nonempty (.dir (hd2 :: tl2))
                (a :: b) _ hsubwf h hch
              exact ⟨ch', by simpa [cleanEmptyDirs] using hch'⟩

/-! ### `Empty` fold lemmas -/

theorem lookupFs_append (fs : Entry) (a b : Path) :
    lookupFs fs (a ++ b) = (lookupFs fs a).bind (fun e => lookupFs e b) := by
  induction a generalizing fs with
  | nil => simp
  | cons n rest ih =>
    cases fs with
    | file c => simp [lookupFs]
    | dir ch =>
      simp only [List.cons_append, lookupFs]
      cases hg : getChild ch n with
      | none => simp
      | some sub => simpa using ih sub

theorem lookup_chain_dirs {fs : Entry} {q : Path} {e : Entry}
    (h : lookupFs fs q = some e) :
    ∀ r, r <+: q → r ≠ q → ∃ ch, lookupFs fs r = some (.dir ch) := by
  induction q generalizing fs with
  | nil =>
    intro r hr hrne
    exact absurd (List.prefix_nil.mp hr) hrne
  | cons n rest ih =>
    intro r hr hrne
    cases fs with
    | file c => simp [lookupFs] at h
    | dir ch =>
      cases r with
      | nil => exact ⟨ch, rfl⟩
      | cons m rs =>
        obtain ⟨rfl, hrs⟩ := List.cons_prefix_cons.mp hr
        simp only [lookupFs] at h ⊢
        cases hg : getChild ch m with
        | none => simp [hg] at h
        | some sub =>
          simp only [hg] at h
          exact ih h rs hrs (fun hc => hrne (by rw [hc]))

theorem emptyStep_frame (fs : Entry) (j : Path) {r : Path}
    (h1 : diverge j r) (h2 : diverge (sidecarPath j) r) :
    lookupFs (emptyStep fs j) r = lookupFs fs r := by
  simp only [emptyStep, removeAllFs]
  cases hr : removeF (eraseAt fs j) (sidecarPath j) with
  | none =>
    simp only [Option.getD_none]
    exact lookupFs_eraseAt_diverge fs h1
  | some fs2 =>
    simp only [Option.getD_some]
    rw [removeF_eq_eraseAt hr, lookupFs_eraseAt_diverge _ h2]
    exact lookupFs_eraseAt_diverge fs h1

theorem emptyStep_self (fs : Entry) {j : Path} {q : Path} {n : String}
    (hj : j = q ++ [n]) {c : FileContent}
    (hside : lookupFs fs (sidecarPath j) = some (.file c)) :
    lookupFs (emptyStep fs j) j = none ∧
    lookupFs (emptyStep fs j) (sidecarPath j) = none := by
  have hdvs : diverge j (sidecarPath j) := hj ▸ diverge_sidecar q n
  have hjne : j ≠ [] := by subst hj; simp
  have hsne : sidecarPath j ≠ [] := by
    subst hj; rw [sidecarPath, appendLast_concat]; simp
  simp only [emptyStep, removeAllFs]
  have hside1 : lookupFs (eraseAt fs j) (sidecarPath j) = some (.file c) := by
    rw [lookupFs_eraseAt_diverge fs hdvs]
    exact hside
  have hrs := removeF_isSome_file hside1 hsne
  cases hr : removeF (eraseAt fs j) (sidecarPath j) with
  | none => rw [hr] at hrs; simp at hrs
  | some fs2 =>
    simp only [Option.getD_some]
    rw [removeF_eq_eraseAt hr]
    constructor
    · rw [lookupFs_eraseAt_diverge _ hdvs.symm]
      exact lookupFs_eraseAt_self fs hjne
    · exact lookupFs_eraseAt_self _ hsne

theorem emptyStep_none (fs : Entry) (j : Path) {r : Path}
    (h : lookupFs fs r = none) : lookupFs (emptyStep fs j) r = none := by
  simp only [emptyStep, removeAllFs]
  cases hr : removeF (eraseAt fs j) (sidecarPath j) with
  | none =>
    simp only [Option.getD_none]
    exact lookupFs_eraseAt_none fs j h
  | some fs2 =>
    simp only [Option.getD_some]
    rw [removeF_eq_eraseAt hr]
    exact lookupFs_eraseAt_none _ _ (lookupFs_eraseAt_none fs j h)

theorem empty_foldl_none (l : List Path) (fs : Entry) {r : Path}
    (h : lookupFs fs r = none) : lookupFs (l.foldl emptyStep fs) r = none := by
  induction l generalizing fs with
  | nil => exact h
  | cons j rest ih => exact ih _ (emptyStep_none fs j h)

theorem empty_fold_spec :
    ∀ (l : List Path) (fs0 : Entry),
      l.Pairwise pairRel →
      (∀ p ∈ l, ∃ q n, p = q ++ [n]) →
      (∀ p ∈ l, ∃ c, lookupFs fs0 (sidecarPath p) = some (.file c)) →
      ∀ p ∈ l,
        lookupFs (l.foldl emptyStep fs0) p = none ∧
        lookupFs (l.foldl emptyStep fs0) (sidecarPath p) = none := by
  intro l
  induction l with
  | nil => intro fs0 _ _ _ p hp; simp at hp
  | cons j rest ih =>
    intro fs0 hpw hform hfile p hp
    have hpwj := List.pairwise_cons.mp hpw
    simp only [List.foldl_cons]
    rcases List.mem_cons.mp hp with rfl | hprest
    · obtain ⟨q, n, hj⟩ := hform p (by simp)
      obtain ⟨c, hc⟩ := hfile p (by simp)
      obtain ⟨h1, h2⟩ := emptyStep_self fs0 hj hc
      exact ⟨empty_foldl_none rest _ h1, empty_foldl_none rest _ h2⟩
    · have hrel := hpwj.1 p hprest
      have hp2 : lookupFs (emptyStep fs0 j) (sidecarPath p) =
          lookupFs fs0 (sidecarPath p) :=
        emptyStep_frame fs0 j hrel.2.2.1 hrel.2.2.2
      exact ih (emptyStep fs0 j) hpwj.2
        (fun x hx => hform x (by simp [hx]))
        (fun x hx => by
          rcases hfile x (by simp [hx]) with ⟨cx, hcx⟩
          have := List.pairwise_cons.mp hpw
          have hrelx := this.1 x hx
          exact ⟨cx, by
            rw [emptyStep_frame fs0 j hrelx.2.2.1 hrelx.2.2.2]
            exact hcx⟩)
        p hprest

/-! ### Well-formedness preservation -/

theorem fst_mem_setChild {ch : Dirents} {n y : String} {e : Entry}
    (h : y ∈ (setChild ch n e).map Prod.fst) : y ∈ ch.map Prod.fst ∨ y = n := by
  induction ch with
  | nil => simpa [setChild] using h
  | cons hd tl ih =>
    obtain ⟨m, x⟩ := hd
    by_cases hmn : m = n
    · subst hmn
      refine Or.inl ?_
      simp only [setChild, if_pos rfl, List.map_cons] at h ⊢
      exact h
    · simp only [setChild, hmn, if_false, List.map_cons, List.mem_cons] at h
      rcases h with rfl | h
      · simp
      · rcases ih h with h2 | h2
        · exact Or.inl (by simp [h2])
        · exact Or.inr h2

theorem mem_setChild {ch : Dirents} {n : String} {e : Entry} {x : String × Entry}
    (h : x ∈ setChild ch n e) : x ∈ ch ∨ x = (n, e) := by
  induction ch with
  | nil => simpa [setChild] using h
  | cons hd tl ih =>
    obtain ⟨m, y⟩ := hd
    by_cases hmn : m = n
    · subst hmn
      simp only [setChild, if_pos rfl] at h
      cases h with
      | head => exact Or.inr rfl
      | tail b h1 => exact Or.inl (List.mem_cons_of_mem _ h1)
    · simp only [setChild, hmn, if_false] at h
      cases h with
      | head => exact Or.inl (by simp)
      | tail b h1 =>
        rcases ih h1 with h2 | h2
        · exact Or.inl (List.mem_cons_of_mem _ h2)
        · exact Or.inr h2

theorem namesNodup_setChild {ch : Dirents} {n : String} {e : Entry}
    (h : (ch.map Prod.fst).Nodup) : ((setChild ch n e).map Prod.fst).Nodup := by
  induction ch with
  | nil => simp [setChild]
  | cons hd tl ih =>
    obtain ⟨m, x⟩ := hd
    simp only [List.map_cons, List.nodup_cons] at h
    by_cases hmn : m = n
    · subst hmn
      simpa [setChild] using h
    · simp only [setChild, hmn, if_false, List.map_cons, List.nodup_cons]
      refine ⟨?_, ih h.2⟩
      intro hc
      rcases fst_mem_setChild hc with h2 | h2
      · exact h.1 h2
      · exact hmn h2

theorem wf_setChild {ch : Dirents} {n : String} {e : Entry}
    (hwf : Entry.wfB (.dir ch) = true) (he : Entry.wfB e = true) :
    Entry.wfB (.dir (setChild ch n e)) = true := by
  simp only [Entry.wfB, Bool.and_eq_true, namesNodupB, decide_eq_true_eq] at hwf ⊢
  refine ⟨namesNodup_setChild hwf.1, ?_⟩
  rw [childrenWf_iff]
  intro p hp
  rcases mem_setChild hp with h2 | h2
  · exact childrenWf_iff.mp hwf.2 p h2
  · rw [h2]; exact he

theorem wf_delChild {ch : Dirents} {n : String}
    (hwf : Entry.wfB (.dir ch) = true) :
    Entry.wfB (.dir (delChild ch n)) = true := by
  simp only [Entry.wfB, Bool.and_eq_true, namesNodupB, decide_eq_true_eq] at hwf ⊢
  constructor
  · exact ((List.filter_sublist ch).map Prod.fst).nodup hwf.1
  · rw [childrenWf_iff]
    intro p hp
    exact childrenWf_iff.mp hwf.2 p (List.mem_of_mem_filter hp)

theorem wf_eraseAt {fs : Entry} (p : Path) (hwf : Entry.wfB fs = true) :
    Entry.wfB (eraseAt fs p) = true := by
  induction p generalizing fs with
  | nil => simpa [eraseAt]
  | cons n rest ih =>
    cases fs with
    | file c => cases rest <;> simpa [eraseAt]
    | dir ch =>
      cases rest with
      | nil => exact wf_delChild hwf
      | cons m rests =>
        simp only [eraseAt]
        cases hg : getChild ch n with
        | none => exact hwf
        | some sub =>
          exact wf_setChild hwf (ih (getChild_wf hwf hg))

theorem wf_emptyStep {fs : Entry} (j : Path) (hwf : Entry.wfB fs = true) :
    Entry.wfB (emptyStep fs j) = true := by
  simp only [emptyStep, removeAllFs]
  cases hr : removeF (eraseAt fs j) (sidecarPath j) with
  | none => exact wf_eraseAt j hwf
  | some fs2 =>
    simp only [Option.getD_some]
    rw [removeF_eq_eraseAt hr]
    exact wf_eraseAt _ (wf_eraseAt j hwf)

theorem wf_foldl_empty (l : List Path) {fs : Entry} (hwf : Entry.wfB fs = true) :
    Entry.wfB (l.foldl emptyStep fs) = true := by
  induction l generalizing fs with
  | nil => exact hwf
  | cons j rest ih => exact ih (wf_emptyStep j hwf)

/-! ### Shape of the scanner output -/

theorem walk_shape :
    (∀ (pre : Path) (all rest : Dirents), ∀ x ∈ walkChildren pre all rest,
      (∃ q n, x = q ++ [n]) ∧ pre <+: x) ∧
    (∀ (pre : Path) (e : Entry), ∀ x ∈ walkDescend pre e,
      (∃ q n, x = q ++ [n]) ∧ pre <+: x) := by
  refine walkChildren.mutual_induct
    (fun pre all rest => ∀ x ∈ walkChildren pre all rest,
      (∃ q n, x = q ++ [n]) ∧ pre <+: x)
    (fun pre e => ∀ x ∈ walkDescend pre e,
      (∃ q n, x = q ++ [n]) ∧ pre <+: x)
    ?_ ?_ ?_ ?_
  · intro pre a x hx
    simp [walkDescend] at hx
  · intro pre a h x hx
    simp only [walkDescend] at hx
    exact h x hx
  · intro pre all x hx
    simp [walkChildren] at hx
  · intro pre all m e rest ihd ihr x hx
    simp only [walkChildren, List.mem_append] at hx
    rcases hx with (hx | hx) | hx
    · have hxe : x = pre ++ [m] := by
        revert hx
        split
        · intro hx; simp at hx
        · split
          · intro hx; simp at hx
          · split
            · intro hx; simpa using hx
            · intro hx; simp at hx
      subst hxe
      exact ⟨⟨pre, m, rfl⟩, pre.prefix_append [m]⟩
    · have := ihd x hx
      exact ⟨this.1, (pre.prefix_append [m]).trans this.2⟩
    · exact ihr x hx

theorem findTrashItems_shape {fs : Entry} {T : Path} :
    ∀ p ∈ findTrashItems fs T,
      (∃ q n, p = q ++ [n]) ∧ ∃ rel, rel ≠ [] ∧ p = T ++ rel := by
  intro p hp
  unfold findTrashItems at hp
  cases hl : lookupFs fs T with
  | none => rw [hl] at hp; simp at hp
  | some e =>
    rw [hl] at hp
    cases e with
    | file c => simp at hp
    | dir ch =>
      simp only [List.mem_map] at hp
      obtain ⟨x, hx, rfl⟩ := hp
      obtain ⟨⟨q, n, rfl⟩, -⟩ := walk_shape.1 [] ch ch x hx
      constructor
      · exact ⟨T ++ q, n, by simp⟩
      · exact ⟨q ++ [n], by simp, rfl⟩

/-! ### `pickMatch` and `Restore` lemmas -/

theorem pickStep_no_match {fs : Entry} {orig : Path} {i : Path}
    (h : ∀ m, GetMetadata fs i = some m → m.originalPath ≠ orig)
    (acc : Option (Path × Metadata)) : pickStep fs orig acc i = acc := by
  unfold pickStep
  cases hg : GetMetadata fs i with
  | none => simp only [hg]
  | some m => simp only [hg]; rw [if_neg (h m hg)]

theorem pickMatch_none {fs : Entry} {orig : Path} {l : List Path}
    (h : ∀ i ∈ l, ∀ m, GetMetadata fs i = some m → m.originalPath ≠ orig) :
    pickMatch fs orig l = none := by
  unfold pickMatch
  induction l with
  | nil => rfl
  | cons j rest ih =>
    simp only [List.foldl_cons]
    rw [pickStep_no_match (h j (by simp)) none]
    exact ih (fun i hi => h i (by simp [hi]))

/-- The result of one `pickStep`: either the accumulator is kept, or it
is displaced by the current item together with its (matching)
metadata. -/
theorem pickStep_cases (fs : Entry) (orig : Path) (acc : Option (Path × Metadata)) (i : Path) :
    pickStep fs orig acc i = acc ∨
    ∃ m, GetMetadata fs i = some m ∧ m.originalPath = orig ∧
      pickStep fs orig acc i = some (i, m) := by
  unfold pickStep
  cases hg : GetMetadata fs i with
  | none => exact Or.inl (by simp only [hg])
  | some m =>
    simp only [hg]
    by_cases hm : m.originalPath = orig
    · rw [if_pos hm]
      cases acc with
      | none => exact Or.inr ⟨m, rfl, hm, rfl⟩
      | some b =>
        cases haf : m.deletedAt.after b.2.deletedAt with
        | true => exact Or.inr ⟨m, rfl, hm, by simp [haf]⟩
        | false => exact Or.inl (by simp [haf])
    · rw [if_neg hm]
      exact Or.inl rfl

/-- A matching item displaces any accumulator that is `none` or holds a
strictly older timestamp. -/
theorem pickStep_wins {fs : Entry} {orig : Path} {i : Path} {m : Metadata}
    (hg : GetMetadata fs i = some m) (hm : m.originalPath = orig)
    {acc : Option (Path × Metadata)}
    (hacc : acc = none ∨ ∃ b, acc = some b ∧ b.2.deletedAt.key < m.deletedAt.key) :
    pickStep fs orig acc i = some (i, m) := by
  unfold pickStep
  simp only [hg]
  rw [if_pos hm]
  rcases hacc with rfl | ⟨b, rfl, hb⟩
  · rfl
  · have haf : m.deletedAt.after b.2.deletedAt = true := by
      simp only [DateTime.after, decide_eq_true_eq]
      exact hb
    simp [haf]

/-- An accumulator at least as recent as the current item survives the
step (the strict `After` comparison keeps the incumbent on a tie). -/
theorem pickStep_keeps {fs : Entry} {orig : Path} {j : Path} {b : Path × Metadata}
    (h : ∀ m, GetMetadata fs j = some m → m.originalPath = orig →
      m.deletedAt.key ≤ b.2.deletedAt.key) :
    pickStep fs orig (some b) j = some b := by
  unfold pickStep
  cases hg : GetMetadata fs j with
  | none => simp only [hg]
  | some m =>
    simp only [hg]
    by_cases hm : m.originalPath = orig
    · rw [if_pos hm]
      have haf : m.deletedAt.after b.2.deletedAt = false := by
        simp only [DateTime.after, decide_eq_false_iff_not, not_lt]
        exact h m hg hm
      simp [haf]
    · rw [if_neg hm]

theorem foldl_pickStep_keep {fs : Entry} {orig : Path} {b : Path × Metadata} :
    ∀ l : List Path,
      (∀ j ∈ l, ∀ m, GetMetadata fs j = some m → m.originalPath = orig →
        m.deletedAt.key ≤ b.2.deletedAt.key) →
      l.foldl (pickStep fs orig) (some b) = some b := by
  intro l
  induction l with
  | nil => intro _; rfl
  | cons j rest ih =>
    intro h
    simp only [List.foldl_cons]
    rw [pickStep_keeps (h j (by simp))]
    exact ih (fun k hk => h k (by simp [hk]))

theorem foldl_pickStep_some {fs : Entry} {orig : Path} :
    ∀ l : List Path, ∀ acc : Option (Path × Metadata), acc.isSome →
      (l.foldl (pickStep fs orig) acc).isSome := by
  intro l
  induction l with
  | nil => intro acc h; exact h
  | cons j rest ih =>
    intro acc h
    simp only [List.foldl_cons]
    obtain ⟨b, rfl⟩ := Option.isSome_iff_exists.mp h
    rcases pickStep_cases fs orig (some b) j with heq | ⟨m, hgm, hom, heq⟩
    · rw [heq]; exact ih _ h
    · rw [heq]; exact ih _ rfl

theorem pickStep_isSome_of_match {fs : Entry} {orig : Path} {i : Path} {m : Metadata}
    (hg : GetMetadata fs i = some m) (ho : m.originalPath = orig)
    (acc : Option (Path × Metadata)) :
    (pickStep fs orig acc i).isSome := by
  unfold pickStep
  simp only [hg]
  rw [if_pos ho]
  cases acc with
  | none => rfl
  | some b =>
    cases haf : m.deletedAt.after b.2.deletedAt with
    | true => simp [haf]
    | false => simp [haf]

/-- When some enumerated item matches, the selection yields a result. -/
theorem pickMatch_isSome {fs : Entry} {orig : Path} {l : List Path} {i : Path} {m : Metadata}
    (hi : i ∈ l) (hg : GetMetadata fs i = some m) (ho : m.originalPath = orig) :
    (pickMatch fs orig l).isSome := by
  unfold pickMatch
  obtain ⟨l1, l2, rfl⟩ := List.append_of_mem hi
  rw [List.foldl_append]
  simp only [List.foldl_cons]
  obtain ⟨b, hb⟩ := Option.isSome_iff_exists.mp
    (pickStep_isSome_of_match hg ho (l1.foldl (pickStep fs orig) none))
  rw [hb]
  exact foldl_pickStep_some l2 _ (by simp)

theorem foldl_pickStep_reach {fs : Entry} {orig : Path} {iS : Path} {mS : Metadata} :
    ∀ l : List Path, l.Nodup → iS ∈ l →
      GetMetadata fs iS = some mS → mS.originalPath = orig →
      (∀ j ∈ l, j ≠ iS → ∀ m, GetMetadata fs j = some m → m.originalPath = orig →
        m.deletedAt.key < mS.deletedAt.key) →
      ∀ acc : Option (Path × Metadata),
        (acc = none ∨ ∃ b, acc = some b ∧ b.2.deletedAt.key < mS.deletedAt.key) →
        l.foldl (pickStep fs orig) acc = some (iS, mS) := by
  intro l
  induction l with
  | nil => intro _ hiS; simp at hiS
  | cons j rest ih =>
    intro hnd hiS hmS hoS hmax acc hacc
    simp only [List.foldl_cons]
    by_cases hji : j = iS
    · subst hji
      rw [pickStep_wins hmS hoS hacc]
      apply foldl_pickStep_keep
      intro k hk m hgk hok
      have hkj : k ≠ j := fun hkj => (List.nodup_cons.mp hnd).1 (hkj ▸ hk)
      exact le_of_lt (hmax k (by simp [hk]) hkj m hgk hok)
    · have hiS' : iS ∈ rest := by
        rcases List.mem_cons.mp hiS with h1 | h1
        · exact absurd h1.symm hji
        · exact h1
      rcases pickStep_cases fs orig acc j with heq | ⟨m, hgm, hom, heq⟩
      · rw [heq]
        exact ih (List.nodup_cons.mp hnd).2 hiS' hmS hoS
          (fun k hk hki m2 hgk hok => hmax k (by simp [hk]) hki m2 hgk hok) acc hacc
      · rw [heq]
        exact ih (List.nodup_cons.mp hnd).2 hiS' hmS hoS
          (fun k hk hki m2 hgk hok => hmax k (by simp [hk]) hki m2 hgk hok)
          (some (j, m)) (Or.inr ⟨(j, m), rfl, hmax j (by simp) hji m hgm hom⟩)

/-- The selection loop returns the strictly latest matching item. -/
theorem pickMatch_max {fs : Entry} {orig : Path} {l : List Path} {iS : Path} {mS : Metadata}
    (hnd : l.Nodup) (hiS : iS ∈ l) (hmS : GetMetadata fs iS = some mS)
    (hoS : mS.originalPath = orig)
    (hmax : ∀ j ∈ l, j ≠ iS → ∀ m, GetMetadata fs j = some m → m.originalPath = orig →
      m.deletedAt.key < mS.deletedAt.key) :
    pickMatch fs orig l = some (iS, mS) :=
  foldl_pickStep_reach l hnd hiS hmS hoS hmax none (Or.inl rfl)

theorem dropLast_isPrefix (l : Path) : l.dropLast <+: l := by
  rw [List.dropLast_eq_take]
  exact List.take_prefix _ l

theorem prefix_dropLast {r q : Path} (h : r <+: q) (hne : r ≠ q) : r <+: q.dropLast := by
  have hlt : r.length < q.length := by
    have h1 := h.length_le
    rcases Nat.lt_or_ge r.length q.length with h2 | h2
    · exact h2
    · exact absurd (List.IsPrefix.eq_of_length h (le_antisymm h1 h2)) hne
  have ht : q.dropLast.take r.length = q.take r.length := by
    rw [List.dropLast_eq_take, List.take_take]
    congr 1
    omega
  rw [List.prefix_iff_eq_take] at h ⊢
  rw [ht, ← h]

/-- After a successful `setAt`, every strict prefix of the target path
resolves to a directory. -/
theorem lookupFs_setAt_chain {fs fs' : Entry} {p : Path} {e : Entry}
    (h : setAt fs p e = some fs') :
    ∀ r, r <+: p → r ≠ p → ∃ ch, lookupFs fs' r = some (.dir ch) := by
  induction p generalizing fs fs' with
  | nil => intro r hr hne; exact absurd (List.prefix_nil.mp hr) hne
  | cons n rest ih =>
    intro r hr hne
    cases fs with
    | file c => simp [setAt] at h
    | dir ch =>
      cases r with
      | nil =>
        cases rest with
        | nil =>
          simp only [setAt, Option.some.injEq] at h
          subst h
          exact ⟨setChild ch n e, rfl⟩
        | cons m rests =>
          simp only [setAt] at h
          cases hg : getChild ch n with
          | none => simp [hg] at h
          | some sub =>
            simp only [hg] at h
            cases hs : setAt sub (m :: rests) e with
            | none => simp [hs] at h
            | some sub' =>
              simp only [hs, Option.map_some', Option.some.injEq] at h
              subst h
              exact ⟨setChild ch n sub', rfl⟩
      | cons a rs =>
        obtain ⟨ha, hrs⟩ := List.cons_prefix_cons.mp hr
        subst ha
        cases rest with
        | nil =>
          have hrs0 : rs = [] := List.prefix_nil.mp hrs
          subst hrs0
          exact absurd rfl hne
        | cons m rests =>
          simp only [setAt] at h
          cases hg : getChild ch a with
          | none => simp [hg] at h
          | some sub =>
            simp only [hg] at h
            cases hs : setAt sub (m :: rests) e with
            | none => simp [hs] at h
            | some sub' =>
              simp only [hs, Option.map_some', Option.some.injEq] at h
              subst h
              have hne' : rs ≠ m :: rests := fun hc => hne (by rw [hc])
              obtain ⟨chr, hchr⟩ := ih hs rs hrs hne'
              exact ⟨chr, by simpa [lookupFs, getChild_setChild_self] using hchr⟩

/-! ### String equality helpers -/

theorem string_eq_empty_of_data {a : String} (h : a.data = []) : a = "" := by
  cases a with
  | mk l =>
    simp only [] at h
    subst h
    rfl

theorem string_append_ne_empty_left {a : String} (h : a ≠ "") (b : String) : a ++ b ≠ "" := by
  intro hc
  apply h
  apply string_eq_empty_of_data
  have h2 := congrArg String.data hc
  rw [String.data_append] at h2
  have h3 : a.data ++ b.data = ([] : List Char) := h2
  exact (List.append_eq_nil.mp h3).1

theorem string_dot_ne_empty (s : String) : ("." ++ s) ≠ "" :=
  string_append_ne_empty_left (by decide) s

theorem string_append_left_cancel {a b c : String} (h : a ++ b = a ++ c) : b = c := by
  have hd := congrArg String.data h
  simp only [String.data_append] at hd
  have h2 := List.append_cancel_left hd
  cases b with
  | mk l1 =>
    cases c with
    | mk l2 => rw [show l1 = l2 from h2]

/-! ### Frame lemmas for syscall traces -/

/-- Per-operation disjointness conditions under which the observation
path `r` is untouched by the syscall. -/
def opSafe (r : Path) : FsOp → Prop
  | .mkAll p => ¬ r <+: p
  | .ren s d => diverge s r ∧ diverge d r
  | .wr p _ => diverge p r
  | .rmF p => diverge p r
  | .rmAll p => diverge p r
  | .wrMetaTry p _ => diverge p r

theorem renameFs_frame {fs fs' : Entry} {s d : Path}
    (h : renameFs fs s d = some fs') {r : Path} (hs : diverge s r) (hd : diverge d r) :
    lookupFs fs' r = lookupFs fs r := by
  unfold renameFs at h
  cases hl : lookupFs fs s with
  | none => rw [hl] at h; exact absurd h (by simp)
  | some e =>
    simp only [hl] at h
    split at h
    · exact absurd h (by simp)
    · rw [lookupFs_setAt_diverge h hd, lookupFs_eraseAt_diverge fs hs]

theorem exec_frame {fs fs' : Entry} {op : FsOp} (h : exec fs op = some fs')
    {r : Path} (hsafe : opSafe r op) : lookupFs fs' r = lookupFs fs r := by
  cases op with
  | mkAll p =>
    simp only [exec] at h
    exact lookupFs_mkdirAll_notPre h hsafe
  | ren s d =>
    simp only [exec] at h
    exact renameFs_frame h hsafe.1 hsafe.2
  | wr p c =>
    simp only [exec] at h
    exact lookupFs_writeF_diverge h hsafe
  | rmF p =>
    simp only [exec] at h
    rw [removeF_eq_eraseAt h]
    exact lookupFs_eraseAt_diverge fs hsafe
  | rmAll p =>
    simp only [exec, Option.some.injEq] at h
    subst h
    exact lookupFs_eraseAt_diverge fs hsafe
  | wrMetaTry p c =>
    simp only [exec, Option.some.injEq] at h
    subst h
    cases hw : writeF fs p c with
    | none => simp [hw]
    | some w =>
      simp only [hw, Option.getD_some]
      exact lookupFs_writeF_diverge hw hsafe

theorem execList_frame {r : Path} :
    ∀ (ops : List FsOp) (fs : Entry), (∀ op ∈ ops, opSafe r op) →
      lookupFs (execList fs ops).1 r = lookupFs fs r := by
  intro ops
  induction ops with
  | nil => intro fs _; rfl
  | cons op rest ih =>
    intro fs h
    cases he : exec fs op with
    | none => simp [execList, he]
    | some fs1 =>
      simp only [execList, he]
      rw [ih fs1 (fun o ho => h o (by simp [ho]))]
      exact exec_frame he (h op (by simp))

theorem diverge_extend {a r : Path} (h : diverge a r) (rel : Path) :
    diverge (a ++ rel) r := by
  simpa using diverge_append rel [] h

/-- Every syscall in a copy+delete trace touches only the source or the
destination subtree. -/
theorem copyOps_safe :
    (∀ (src dst : Path) (e : Entry), ∀ r, diverge src r → diverge dst r →
      ∀ op ∈ copyOps src dst e, opSafe r op) ∧
    (∀ (src dst : Path) (ch : Dirents), ∀ r, diverge src r → diverge dst r →
      ∀ op ∈ copyChildOps src dst ch, opSafe r op) := by
  refine copyOps.mutual_induct
    (fun src dst e => ∀ r, diverge src r → diverge dst r →
      ∀ op ∈ copyOps src dst e, opSafe r op)
    (fun src dst ch => ∀ r, diverge src r → diverge dst r →
      ∀ op ∈ copyChildOps src dst ch, opSafe r op)
    ?_ ?_ ?_ ?_
  · intro src dst c r hs hd op hop
    simp only [copyOps, List.mem_cons, List.not_mem_nil, or_false] at hop
    rcases hop with rfl | rfl
    · exact hd
    · exact hs
  · intro src dst ch ihc r hs hd op hop
    simp only [copyOps, List.mem_cons, List.mem_append, List.not_mem_nil, or_false] at hop
    rcases hop with (rfl | hop) | rfl
    · exact hd.2
    · exact ihc r hs hd op hop
    · exact hs
  · intro src dst r hs hd op hop
    simp [copyChildOps] at hop
  · intro src dst n e rest ihe ihr r hs hd op hop
    simp only [copyChildOps, List.mem_append] at hop
    rcases hop with hop | hop
    · exact ihe r (diverge_extend hs [n]) (diverge_extend hd [n]) op hop
    · exact ihr r hs hd op hop

/-! ### Injectivity of the `Move` disambiguation timestamp -/

theorem padDigits_length : ∀ (w n : Nat), (padDigits w n).length = w := by
  intro w
  induction w with
  | zero => intro n; rfl
  | succ w ih => intro n; simp [padDigits, ih]

theorem padDigits_lt : ∀ (w n : Nat), ∀ d ∈ padDigits w n, d < 10 := by
  intro w
  induction w with
  | zero => intro n d hd; simp [padDigits] at hd
  | succ w ih =>
    intro n d hd
    simp only [padDigits, List.mem_append, List.mem_singleton] at hd
    rcases hd with hd | rfl
    · exact ih _ d hd
    · omega

theorem padDigits_inj : ∀ (w m1 m2 : Nat), m1 < 10 ^ w → m2 < 10 ^ w →
    padDigits w m1 = padDigits w m2 → m1 = m2 := by
  intro w
  induction w with
  | zero =>
    intro m1 m2 h1 h2 _
    simp only [pow_zero, Nat.lt_one_iff] at h1 h2
    omega
  | succ w ih =>
    intro m1 m2 h1 h2 heq
    have hp : 10 ^ (w + 1) = 10 ^ w * 10 := pow_succ 10 w
    simp only [padDigits] at heq
    have hlen : (padDigits w (m1 / 10)).length = (padDigits w (m2 / 10)).length := by
      rw [padDigits_length, padDigits_length]
    obtain ⟨heq1, heq2⟩ := List.append_inj heq hlen
    have hd1 : m1 / 10 < 10 ^ w := by omega
    have hd2 : m2 / 10 < 10 ^ w := by omega
    have h10 := ih (m1 / 10) (m2 / 10) hd1 hd2 heq1
    have hm : m1 % 10 = m2 % 10 := by simpa using heq2
    omega

theorem digitChar_inj : ∀ a, a < 10 → ∀ b, b < 10 → digitChar a = digitChar b → a = b := by
  decide

theorem map_digitChar_inj : ∀ (l1 l2 : List Nat), (∀ d ∈ l1, d < 10) → (∀ d ∈ l2, d < 10) →
    l1.map digitChar = l2.map digitChar → l1 = l2 := by
  intro l1
  induction l1 with
  | nil =>
    intro l2 _ _ h
    cases l2 with
    | nil => rfl
    | cons b r2 => simp at h
  | cons a rest ih =>
    intro l2 h1 h2 h
    cases l2 with
    | nil => simp at h
    | cons b rest2 =>
      simp only [List.map_cons, List.cons.injEq] at h
      have ha := digitChar_inj a (h1 a (by simp)) b (h2 b (by simp)) h.1
      rw [ha, ih rest2 (fun d hd => h1 d (by simp [hd])) (fun d hd => h2 d (by simp [hd])) h.2]

/-- The `"20060102-150405"` format is injective on in-range wall-clock
times, so distinct deletion seconds give distinct disambiguation
suffixes. -/
theorem fmtTs_inj {t1 t2 : DateTime} (h1 : t1.valid) (h2 : t2.valid)
    (h : fmtTs t1 = fmtTs t2) : t1 = t2 := by
  unfold fmtTs at h
  injection h with hdata
  have hlen : ((padDigits 8 ((t1.y * 100 + t1.mo) * 100 + t1.d)).map digitChar).length =
      ((padDigits 8 ((t2.y * 100 + t2.mo) * 100 + t2.d)).map digitChar).length := by
    rw [List.length_map, List.length_map, padDigits_length, padDigits_length]
  obtain ⟨hA, hB⟩ := List.append_inj hdata hlen
  have hB2 : (padDigits 6 ((t1.h * 100 + t1.mi) * 100 + t1.s)).map digitChar =
      (padDigits 6 ((t2.h * 100 + t2.mi) * 100 + t2.s)).map digitChar := by
    injection hB
  have hymd : (t1.y * 100 + t1.mo) * 100 + t1.d = (t2.y * 100 + t2.mo) * 100 + t2.d := by
    have h8 : (10 : Nat) ^ 8 = 100000000 := by norm_num
    obtain ⟨a1, b1, c1, -, -, -⟩ := h1
    obtain ⟨a2, b2, c2, -, -, -⟩ := h2
    refine padDigits_inj 8 _ _ (by omega) (by omega)
      (map_digitChar_inj _ _ (padDigits_lt 8 _) (padDigits_lt 8 _) hA)
  have hhms : (t1.h * 100 + t1.mi) * 100 + t1.s = (t2.h * 100 + t2.mi) * 100 + t2.s := by
    have h6 : (10 : Nat) ^ 6 = 1000000 := by norm_num
    obtain ⟨-, -, -, d1, e1, f1⟩ := h1
    obtain ⟨-, -, -, d2, e2, f2⟩ := h2
    refine padDigits_inj 6 _ _ (by omega) (by omega)
      (map_digitChar_inj _ _ (padDigits_lt 6 _) (padDigits_lt 6 _) hB2)
  obtain ⟨a1, b1, c1, d1, e1, f1⟩ := h1
  obtain ⟨a2, b2, c2, d2, e2, f2⟩ := h2
  cases t1 with
  | mk y1 mo1 dd1 hh1 mi1 s1 =>
    cases t2 with
    | mk y2 mo2 dd2 hh2 mi2 s2 =>
      simp only [DateTime.mk.injEq]
      simp only [] at hymd hhms a1 b1 c1 d1 e1 f1 a2 b2 c2 d2 e2 f2
      omega

/-! ### `Move` frame and return value -/

/-- `Move` leaves any path disjoint from the source, the destination,
the destination's parent chain and the sidecar unchanged — whether it
moves by rename or by copy+delete, and whether or not it succeeds. -/
theorem Move_frame (env : MoveEnv) (fs : Entry) (src : Path) {r : Path}
    (hs : diverge src r)
    (hdst : diverge (moveDest env fs src) r)
    (hmk : ¬ r <+: (moveDest env fs src).dropLast)
    (hside : diverge (sidecarPath (moveDest env fs src)) r) :
    lookupFs (Move env fs src).1 r = lookupFs fs r := by
  unfold Move movePlan
  cases hsrc : lookupFs fs src with
  | none => simp only [hsrc]
  | some e =>
    simp only [hsrc]
    apply execList_frame
    intro op hop
    simp only [List.mem_cons, List.mem_append, List.not_mem_nil, or_false] at hop
    rcases hop with (rfl | hop) | rfl
    · exact hmk
    · revert hop
      cases hmk2 : mkdirAllFs fs (moveDest env fs src).dropLast with
      | none =>
        simp only [hmk2]
        intro hop
        simp at hop
      | some fs1 =>
        simp only [hmk2]
        by_cases hcd : env.crossDev = true ∨ (renameFs fs1 src (moveDest env fs src)).isNone = true
        · rw [if_pos hcd]
          intro hop
          exact copyOps_safe.1 src (moveDest env fs src) e r hs hdst op hop
        · rw [if_neg hcd]
          intro hop
          simp only [List.mem_singleton] at hop
          subst hop
          exact ⟨hs, hdst⟩
    · exact hside

/-- `Move` reports either failure or exactly the computed (possibly
disambiguated) destination. -/
theorem Move_ret (env : MoveEnv) (fs : Entry) (src : Path) :
    (Move env fs src).2.2 = none ∨ (Move env fs src).2.2 = some (moveDest env fs src) := by
  unfold Move
  cases hp : movePlan env fs src with
  | none => exact Or.inl rfl
  | some pr =>
    obtain ⟨ops, dst⟩ := pr
    have hdst : dst = moveDest env fs src := by
      unfold movePlan at hp
      cases hsrc : lookupFs fs src with
      | none => rw [hsrc] at hp; exact absurd hp (by simp)
      | some e =>
        simp only [hsrc, Option.some.injEq, Prod.mk.injEq] at hp
        exact hp.2.symm
    subst hdst
    cases hb : (execList fs ops).2 with
    | false => exact Or.inl (by simp [hb])
    | true => exact Or.inr (by simp [hb])

/-! ### `Check` pattern lemmas -/

theorem findSome?_isSome_of_mem {α β : Type} {f : α → Option β} :
    ∀ {l : List α} {x : α} {v : β}, x ∈ l → f x = some v →
      (l.findSome? f).isSome = true := by
  intro l
  induction l with
  | nil => intro x v hx; simp at hx
  | cons a rest ih =>
    intro x v hx hf
    rw [List.findSome?_cons]
    cases ha : f a with
    | some b => simp
    | none =>
      rcases List.mem_cons.mp hx with rfl | hx'
      · rw [ha] at hf; exact absurd hf (by simp)
      · exact ih hx' hf

theorem findSome?_isSome_of_isSome {α β : Type} {f : α → Option β} {l : List α} {x : α}
    (hx : x ∈ l) (hf : (f x).isSome = true) : (l.findSome? f).isSome = true := by
  obtain ⟨v, hv⟩ := Option.isSome_iff_exists.mp hf
  exact findSome?_isSome_of_mem hx hv

theorem findSome?_forall {α β : Type} {f : α → Option β} (P : β → Prop) :
    ∀ {l : List α}, (∀ x ∈ l, ∀ v, f x = some v → P v) →
      ∀ st, l.findSome? f = some st → P st := by
  intro l
  induction l with
  | nil => intro _ st h; simp at h
  | cons a rest ih =>
    intro hall st h
    rw [List.findSome?_cons] at h
    cases ha : f a with
    | some b =>
      simp only [ha, Option.some.injEq] at h
      subst h
      exact hall a (by simp) _ ha
    | none =>
      simp only [ha] at h
      exact ih (fun x hx => hall x (by simp [hx])) st h

/-- Every status the built-in loop produces is a protection. -/
theorem checkBuiltin_prot {absPath : String} {recursive : Bool} {st : Status}
    (h : checkBuiltin absPath recursive = some st) : st.prot = true := by
  refine findSome?_forall (fun v => v.prot = true) ?_ st h
  intro pd _ v hv
  by_cases h1 : absPath = pd ∨ absPath = pd ++ "/"
  · rw [if_pos h1] at hv
    simp only [Option.some.injEq] at hv
    subst hv
    rfl
  · rw [if_neg h1] at hv
    by_cases h2 : recursive = true ∧ hasPre pd (absPath ++ "/") = true
    · rw [if_pos h2] at hv
      simp only [Option.some.injEq] at hv
      subst hv
      rfl
    · rw [if_neg h2] at hv
      exact absurd hv (by simp)

/-- Every status the user-pattern loop produces is a protection. -/
theorem checkUserPats_prot {cwd : String} {pats : List String} {absPath : String} {st : Status}
    (h : checkUserPats cwd pats absPath = some st) : st.prot = true := by
  refine findSome?_forall (fun v => v.prot = true) ?_ st h
  intro pat0 _ v hv
  simp only at hv
  set pat := if hasPre pat0 "~" = true then
    replaceFirst pat0 "~" (goAbs cwd (goClean "~")) else pat0 with hpat
  by_cases h1 : goMatch pat absPath = true
  · rw [if_pos h1] at hv
    simp only [Option.some.injEq] at hv
    subst hv
    rfl
  · rw [if_neg h1] at hv
    by_cases h2 : hasSuf pat "/**" = true
    · rw [if_pos h2] at hv
      by_cases h3 : hasPre absPath (trimSuf pat "/**") = true
      · rw [if_pos h3] at hv
        simp only [Option.some.injEq] at hv
        subst hv
        rfl
      · rw [if_neg h3] at hv
        exact absurd hv (by simp)
    · rw [if_neg h2] at hv
      exact absurd hv (by simp)

theorem hasSuf_append (a b : String) : hasSuf (a ++ b) b = true := by
  unfold hasSuf
  rw [String.data_append]
  simp only [List.isSuffixOf, List.reverse_append]
  exact List.isPrefixOf_iff_prefix.mpr (List.prefix_append _ _)

theorem trimSuf_append (a b : String) : trimSuf (a ++ b) b = a := by
  unfold trimSuf
  rw [hasSuf_append, if_pos rfl]
  cases a with
  | mk la =>
    cases b with
    | mk lb =>
      show String.mk ((la ++ lb).take ((la ++ lb).length - lb.length)) = ⟨la⟩
      rw [List.length_append, Nat.add_sub_cancel, List.take_left]

/-- Unfolding of the matcher on a non-metacharacter pattern head: it
demands that exact character in the subject. -/
theorem goMatchFuel_lit_step (f : Nat) (c : Char) (ps s : List Char)
    (h1 : c ≠ '*') (h2 : c ≠ '?') (h3 : c ≠ '[') (h4 : c ≠ '\\') :
    goMatchFuel (f + 1) (c :: ps) s =
      (match s with
       | [] => false
       | d :: ds => c = d && goMatchFuel f ps ds) := by
  have hstep : goMatchFuel (f + 1) (c :: ps) s =
      (if c = '*' then
        goMatchFuel f ps s ||
          (match s with
           | [] => false
           | d :: ds => !isSep d && goMatchFuel f ('*' :: ps) ds)
      else if c = '?' then
        match s with
        | [] => false
        | d :: ds => !isSep d && goMatchFuel f ps ds
      else if c = '[' then
        match s with
        | [] => false
        | d :: ds =>
          match ps with
          | '^' :: ps2 =>
            (match classRanges d (ps2.length + 1) false false ps2 with
             | some (m, rest) => !m && goMatchFuel f rest ds
             | none => false)
          | _ =>
            (match classRanges d (ps.length + 1) false false ps with
             | some (m, rest) => m && goMatchFuel f rest ds
             | none => false)
      else if c = '\\' then
        match ps, s with
        | p2 :: ps2, d :: ds => p2 = d && goMatchFuel f ps2 ds
        | _, _ => false
      else
        match s with
        | [] => false
        | d :: ds => c = d && goMatchFuel f ps ds) := rfl
  rw [hstep, if_neg h1, if_neg h2, if_neg h3, if_neg h4]

/-- A pattern starting with glob-metacharacter-free literal characters
can only match strings that extend the literal part. -/
theorem goMatchFuel_literal_false :
    ∀ (lit : List Char) (f : Nat) (rest s : List Char),
      (∀ c ∈ lit, c ≠ '*' ∧ c ≠ '?' ∧ c ≠ '[' ∧ c ≠ '\\') →
      lit.isPrefixOf s = false →
      goMatchFuel f (lit ++ rest) s = false := by
  intro lit
  induction lit with
  | nil => intro f rest s _ hp; simp [List.isPrefixOf] at hp
  | cons c cs ih =>
    intro f rest s hmeta hp
    cases f with
    | zero => rfl
    | succ f =>
      obtain ⟨h1, h2, h3, h4⟩ := hmeta c (by simp)
      rw [List.cons_append, goMatchFuel_lit_step f c (cs ++ rest) s h1 h2 h3 h4]
      cases s with
      | nil => rfl
      | cons d ds =>
        by_cases hcd : c = d
        · subst hcd
          have hp' : cs.isPrefixOf ds = false := by
            simpa [List.isPrefixOf] using hp
          simp [ih f rest ds (fun x hx => hmeta x (by simp [hx])) hp']
        · simp [hcd]

theorem goMatch_literal_false {dir rest0 s : String}
    (hmeta : ∀ c ∈ dir.data, c ≠ '*' ∧ c ≠ '?' ∧ c ≠ '[' ∧ c ≠ '\\')
    (hp : hasPre s dir = false) :
    goMatch (dir ++ rest0) s = false := by
  unfold goMatch goMatchL
  rw [String.data_append]
  exact goMatchFuel_literal_false dir.data _ rest0.data s.data hmeta hp

/-! ### Temporal ordering of the `Move` syscall trace

`rmCoveredCtx src dst e ctx ops` says: every removal syscall in `ops`
targets a path inside the source subtree, and by the time it runs (the
trace prefix before it, plus the already-executed context `ctx`), every
file of the removed subtree has been written to the corresponding
destination path with its exact content.  Since `execList` runs ops in
order and stops at the first failure, a removal only ever executes
after those writes succeeded. -/
def rmCoveredCtx (src dst : Path) (e : Entry) (ctx ops : List FsOp) : Prop :=
  ∀ pre op suf, ops = pre ++ op :: suf →
    ∀ p, (op = .rmF p ∨ op = .rmAll p) →
      ∃ rel, p = src ++ rel ∧
        ∀ rel2 c, lookupFs e (rel ++ rel2) = some (.file c) →
          FsOp.wr (dst ++ rel ++ rel2) c ∈ ctx ++ pre

theorem rmCoveredCtx_nil {src dst : Path} {e : Entry} {ctx : List FsOp} :
    rmCoveredCtx src dst e ctx [] := by
  intro pre op suf h
  exact absurd h (by simp)

theorem singleton_decomp {α : Type} {x a : α} {pre suf : List α}
    (h : [x] = pre ++ a :: suf) : pre = [] ∧ a = x ∧ suf = [] := by
  cases pre with
  | nil =>
    simp only [List.nil_append, List.cons.injEq] at h
    exact ⟨rfl, h.1.symm, h.2.symm⟩
  | cons b pre2 =>
    simp only [List.cons_append, List.cons.injEq] at h
    exact absurd h.2.symm (by simp)

theorem rmCoveredCtx_singleton_notRm {src dst : Path} {e : Entry} {ctx : List FsOp}
    {op : FsOp} (h1 : ∀ p, op ≠ .rmF p) (h2 : ∀ p, op ≠ .rmAll p) :
    rmCoveredCtx src dst e ctx [op] := by
  intro pre op2 suf hdec p hop
  obtain ⟨rfl, rfl, rfl⟩ := singleton_decomp hdec
  rcases hop with rfl | rfl
  · exact absurd rfl (h1 p)
  · exact absurd rfl (h2 p)

theorem rmCoveredCtx_singleton_rm {src dst : Path} {e : Entry} {ctx : List FsOp}
    {op : FsOp}
    (h : ∀ p, (op = .rmF p ∨ op = .rmAll p) →
      ∃ rel, p = src ++ rel ∧
        ∀ rel2 c, lookupFs e (rel ++ rel2) = some (.file c) →
          FsOp.wr (dst ++ rel ++ rel2) c ∈ ctx) :
    rmCoveredCtx src dst e ctx [op] := by
  intro pre op2 suf hdec p hop
  obtain ⟨rfl, rfl, rfl⟩ := singleton_decomp hdec
  obtain ⟨rel, hrel, hw⟩ := h p hop
  exact ⟨rel, hrel, fun rel2 c hlk => by simpa using hw rel2 c hlk⟩

theorem rmCoveredCtx_append {src dst : Path} {e : Entry} {ctx : List FsOp}
    {l1 l2 : List FsOp}
    (h1 : rmCoveredCtx src dst e ctx l1)
    (h2 : rmCoveredCtx src dst e (ctx ++ l1) l2) :
    rmCoveredCtx src dst e ctx (l1 ++ l2) := by
  intro pre op suf hdec p hop
  rcases List.append_eq_append_iff.mp hdec with ⟨a2, hpre, hl2⟩ | ⟨c2, hl1, hcs⟩
  · obtain ⟨rel, hrel, hw⟩ := h2 a2 op suf hl2 p hop
    refine ⟨rel, hrel, fun rel2 c hlk => ?_⟩
    have := hw rel2 c hlk
    rw [hpre]
    simpa [List.append_assoc] using this
  · cases c2 with
    | nil =>
      rw [List.append_nil] at hl1
      subst hl1
      obtain ⟨rel, hrel, hw⟩ := h2 [] op suf (by simpa using hcs.symm) p hop
      refine ⟨rel, hrel, fun rel2 c hlk => ?_⟩
      have := hw rel2 c hlk
      simpa [List.append_assoc] using this
    | cons o c3 =>
      simp only [List.cons_append, List.cons.injEq] at hcs
      obtain ⟨rfl, -⟩ := hcs
      exact h1 pre op c3 hl1 p hop

theorem rmCoveredCtx_cons_notRm {src dst : Path} {e : Entry} {ctx : List FsOp} {op : FsOp}
    {ops : List FsOp}
    (h1 : ∀ p, op ≠ FsOp.rmF p) (h2 : ∀ p, op ≠ FsOp.rmAll p)
    (h : rmCoveredCtx src dst e (ctx ++ [op]) ops) :
    rmCoveredCtx src dst e ctx (op :: ops) := by
  have hApp : rmCoveredCtx src dst e ctx ([op] ++ ops) :=
    rmCoveredCtx_append (rmCoveredCtx_singleton_notRm h1 h2) h
  exact hApp

theorem rmCoveredCtx_child {src dst : Path} {n : String} {e1 : Entry} {ch : Dirents}
    {ctx ops : List FsOp}
    (h : rmCoveredCtx (src ++ [n]) (dst ++ [n]) e1 ctx ops) :
    rmCoveredCtx src dst (.dir ((n, e1) :: ch)) ctx ops := by
  intro pre op suf hdec p hop
  obtain ⟨rel, hrel, hw⟩ := h pre op suf hdec p hop
  refine ⟨n :: rel, by rw [hrel]; simp, ?_⟩
  intro rel2 c hlk
  have hlk2 : lookupFs e1 (rel ++ rel2) = some (.file c) := by
    simpa [lookupFs, getChild] using hlk
  have := hw rel2 c hlk2
  simpa [List.append_assoc] using this

theorem rmCoveredCtx_skip {src dst : Path} {n : String} {e1 : Entry} {ch : Dirents}
    {ctx ops : List FsOp}
    (h : rmCoveredCtx src dst (.dir ch) ctx ops)
    (hcomp : ∀ rel2 c, lookupFs e1 rel2 = some (.file c) →
      FsOp.wr ((dst ++ [n]) ++ rel2) c ∈ ctx) :
    rmCoveredCtx src dst (.dir ((n, e1) :: ch)) ctx ops := by
  intro pre op suf hdec p hop
  obtain ⟨rel, hrel, hw⟩ := h pre op suf hdec p hop
  refine ⟨rel, hrel, ?_⟩
  intro rel2 c hlk
  cases hrl : rel ++ rel2 with
  | nil =>
    rw [hrl] at hlk
    simp [lookupFs] at hlk
  | cons m q =>
    rw [hrl] at hlk
    by_cases hmn : m = n
    · subst hmn
      have hq : lookupFs e1 q = some (.file c) := by
        simpa [lookupFs, getChild] using hlk
      have hmem := hcomp q c hq
      have hpath : dst ++ rel ++ rel2 = (dst ++ [m]) ++ q := by
        rw [List.append_assoc, hrl]
        simp
      rw [hpath]
      exact List.mem_append.mpr (Or.inl hmem)
    · have hlk2 : lookupFs (Entry.dir ch) (m :: q) = some (.file c) := by
        simpa [lookupFs, getChild, Ne.symm hmn] using hlk
      exact hw rel2 c (by rw [hrl]; exact hlk2)

/-- Completeness of the copy trace: every file of the source subtree is
written, with its content, at the corresponding destination path. -/
theorem copyOps_complete :
    (∀ (src dst : Path) (e : Entry), ∀ rel c, lookupFs e rel = some (.file c) →
      FsOp.wr (dst ++ rel) c ∈ copyOps src dst e) ∧
    (∀ (src dst : Path) (ch : Dirents), ∀ rel c,
      lookupFs (.dir ch) rel = some (.file c) →
      FsOp.wr (dst ++ rel) c ∈ copyChildOps src dst ch) := by
  refine copyOps.mutual_induct
    (fun src dst e => ∀ rel c, lookupFs e rel = some (.file c) →
      FsOp.wr (dst ++ rel) c ∈ copyOps src dst e)
    (fun src dst ch => ∀ rel c, lookupFs (.dir ch) rel = some (.file c) →
      FsOp.wr (dst ++ rel) c ∈ copyChildOps src dst ch)
    ?_ ?_ ?_ ?_
  · intro src dst c0 rel c hlk
    cases rel with
    | nil =>
      simp only [lookupFs, Option.some.injEq, Entry.file.injEq] at hlk
      subst hlk
      simp [copyOps]
    | cons m q => simp [lookupFs] at hlk
  · intro src dst ch ih rel c hlk
    simp only [copyOps]
    exact List.mem_cons_of_mem _ (List.mem_append.mpr (Or.inl (ih rel c hlk)))
  · intro src dst rel c hlk
    cases rel with
    | nil => simp [lookupFs] at hlk
    | cons m q => simp [lookupFs, getChild] at hlk
  · intro src dst n e1 rest ih1 ih2 rel c hlk
    cases rel with
    | nil => simp [lookupFs] at hlk
    | cons m q =>
      simp only [copyChildOps, List.mem_append]
      by_cases hmn : m = n
      · subst hmn
        have hq : lookupFs e1 q = some (.file c) := by
          simpa [lookupFs, getChild] using hlk
        exact Or.inl (by simpa [List.append_assoc] using ih1 q c hq)
      · have hlk2 : lookupFs (Entry.dir rest) (m :: q) = some (.file c) := by
          simpa [lookupFs, getChild, Ne.symm hmn] using hlk
        exact Or.inr (ih2 (m :: q) c hlk2)

/-- Temporal safety of the copy trace: in `copyOps`, every removal
targets the source subtree and comes after the writes of every file it
destroys. -/
theorem copyOps_covered :
    (∀ (src dst : Path) (e : Entry) (ctx : List FsOp),
      rmCoveredCtx src dst e ctx (copyOps src dst e)) ∧
    (∀ (src dst : Path) (ch : Dirents) (ctx : List FsOp),
      rmCoveredCtx src dst (.dir ch) ctx (copyChildOps src dst ch)) := by
  refine copyOps.mutual_induct
    (fun src dst e => ∀ ctx : List FsOp, rmCoveredCtx src dst e ctx (copyOps src dst e))
    (fun src dst ch => ∀ ctx : List FsOp,
      rmCoveredCtx src dst (.dir ch) ctx (copyChildOps src dst ch))
    ?_ ?_ ?_ ?_
  · intro src dst c0 ctx
    refine rmCoveredCtx_append
      (rmCoveredCtx_singleton_notRm (by intro p h; cases h) (by intro p h; cases h)) ?_
    refine rmCoveredCtx_singleton_rm ?_
    intro p hop
    have hp : p = src := by
      rcases hop with h | h
      · cases h; rfl
      · cases h
    subst hp
    refine ⟨[], by simp, ?_⟩
    intro rel2 c hlk
    cases rel2 with
    | nil =>
      simp only [lookupFs, Option.some.injEq, Entry.file.injEq] at hlk
      subst hlk
      simp
    | cons m q => simp [lookupFs] at hlk
  · intro src dst ch ih ctx
    refine rmCoveredCtx_cons_notRm (by intro p h; cases h) (by intro p h; cases h) ?_
    refine rmCoveredCtx_append (ih _) ?_
    refine rmCoveredCtx_singleton_rm ?_
    intro p hop
    have hp : p = src := by
      rcases hop with h | h
      · cases h
      · cases h; rfl
    refine ⟨[], by simp [hp], ?_⟩
    intro rel2 c hlk
    simp only [List.nil_append] at hlk
    have := copyOps_complete.2 src dst ch rel2 c hlk
    simp only [List.append_nil, List.mem_append]
    exact Or.inr this
  · intro src dst ctx
    exact rmCoveredCtx_nil
  · intro src dst n e1 rest ih1 ih2 ctx
    refine rmCoveredCtx_append (rmCoveredCtx_child (ih1 ctx)) ?_
    refine rmCoveredCtx_skip (ih2 _) ?_
    intro rel2 c hlk
    have := copyOps_complete.1 (src ++ [n]) (dst ++ [n]) e1 rel2 c hlk
    exact List.mem_append.mpr (Or.inr this)

/-- The full `Move` plan is removal-safe: whichever branch it takes,
every removal targets the source and follows the writes covering it. -/
theorem movePlan_rmCovered {env : MoveEnv} {fs : Entry} {src : Path}
    {ops : List FsOp} {dst : Path} {e : Entry}
    (hp : movePlan env fs src = some (ops, dst))
    (he : lookupFs fs src = some e) :
    rmCoveredCtx src dst e [] ops := by
  unfold movePlan at hp
  simp only [he, Option.some.injEq, Prod.mk.injEq] at hp
  obtain ⟨hops, hdst⟩ := hp
  subst hdst
  rw [← hops]
  refine rmCoveredCtx_cons_notRm (by intro p h; cases h) (by intro p h; cases h) ?_
  refine rmCoveredCtx_append ?_
    (rmCoveredCtx_singleton_notRm (by intro p h; cases h) (by intro p h; cases h))
  cases hmk2 : mkdirAllFs fs (moveDest env fs src).dropLast with
  | none =>
    simp only [hmk2]
    exact rmCoveredCtx_nil
  | some fs1 =>
    simp only [hmk2]
    by_cases hcd : env.crossDev = true ∨ (renameFs fs1 src (moveDest env fs src)).isNone = true
    · rw [if_pos hcd]
      exact copyOps_covered.1 src (moveDest env fs src) e _
    · rw [if_neg hcd]
      exact rmCoveredCtx_singleton_notRm (by intro p h; cases h) (by intro p h; cases h)

/-! # Claim theorems -/

/-- **C2, divergence witness.**  The spec says an entry is reported as
a trashed item if and only if its sidecar exists; in `fsTrashedDir` the
directory `trash/H/d` has its own sidecar, yet `findTrashItems` reports
nothing: the walk skips any directory containing a non-sidecar entry
(here its own trashed content `f`), and the inner file has no sidecar
of its own. -/
theorem findTrashItems_skips_sidecared_dir :
    (lookupFs fsTrashedDir (sidecarPath ["trash", "H", "d"])).isSome = true ∧
    findTrashItems fsTrashedDir ["trash"] = [] := by
  exact ⟨rfl, rfl⟩

/-- **C3, divergence witness.**  Moving the directory `/home/u/mydir`
(one file inside) to trash preserves the tree and records the original
path, but restoring by that recorded path fails with the not-found
error: the scanner never enumerates the non-empty trashed directory, so
the round trip is broken for every directory with `N ≥ 1` files. -/
theorem dir_round_trip_fails :
    (Move menv1 fsDir ["home", "u", "mydir"]).2 =
      (true, some ["trash", "H", "home", "u", "mydir"]) ∧
    lookupFs (Move menv1 fsDir ["home", "u", "mydir"]).1
        ["trash", "H", "home", "u", "mydir", "f.txt"] = some (.file (.bytes "hello")) ∧
    GetMetadata (Move menv1 fsDir ["home", "u", "mydir"]).1
        ["trash", "H", "home", "u", "mydir"] = some ⟨["home", "u", "mydir"], ts1, "H", true⟩ ∧
    Restore (Move menv1 fsDir ["home", "u", "mydir"]).1 ["trash"] ["home", "u", "mydir"] =
      .error .notFound := by
  exact ⟨rfl, rfl, rfl, rfl⟩

/-- **C4, counterexample.**  The claim says every purged item is
deleted *along with its sidecar*.  In `fsPurge` the old item `a.txt`
has an unreadable sidecar, so it is purged by the modification-time
fallback — which deletes the item but leaves the sidecar in place. -/
theorem Purge_fallback_keeps_sidecar :
    lookupFs (Purge (fun _ => ts0) fsPurge ["trash"] tsCut) ["trash", "H", "a.txt"] = none ∧
    lookupFs (Purge (fun _ => ts0) fsPurge ["trash"] tsCut)
        (sidecarPath ["trash", "H", "a.txt"]) = some (.file (.corrupt "junk")) := by
  exact ⟨rfl, rfl⟩

/-- **C4 (amended).**  With pairwise-disjoint enumerated items (true of
any real trash layout), `Purge` deletes exactly the items whose
deletion time — recorded metadata when readable, else the filesystem
modification time — is strictly before the cutoff `now - retentionDays`:
a readable-metadata purge removes the sidecar too; a fallback
(mtime-based) purge leaves the unreadable sidecar in place; items at or
after the cutoff keep both their content and their sidecar untouched. -/
theorem Purge_cutoff_spec (mt : Path → DateTime) (fs : Entry) (T : Path)
    (cutoff : DateTime)
    (hpw : (findTrashItems fs T).Pairwise pairRel) :
    ∀ p ∈ findTrashItems fs T,
      (∀ m, GetMetadata fs p = some m → m.deletedAt.before cutoff = true →
        lookupFs (Purge mt fs T cutoff) p = none ∧
        lookupFs (Purge mt fs T cutoff) (sidecarPath p) = none) ∧
      (∀ m, GetMetadata fs p = some m → m.deletedAt.before cutoff = false →
        lookupFs (Purge mt fs T cutoff) p = lookupFs fs p ∧
        lookupFs (Purge mt fs T cutoff) (sidecarPath p) = lookupFs fs (sidecarPath p)) ∧
      (GetMetadata fs p = none → (mt p).before cutoff = true →
        lookupFs (Purge mt fs T cutoff) p = none ∧
        lookupFs (Purge mt fs T cutoff) (sidecarPath p) = lookupFs fs (sidecarPath p)) ∧
      (GetMetadata fs p = none → (mt p).before cutoff = false →
        lookupFs (Purge mt fs T cutoff) p = lookupFs fs p ∧
        lookupFs (Purge mt fs T cutoff) (sidecarPath p) = lookupFs fs (sidecarPath p)) := by
  intro p hp
  exact purge_fold_spec mt cutoff (findTrashItems fs T) fs hpw
    (fun x hx => (findTrashItems_shape x hx).1) p hp

/-- Witness for `Purge_cutoff_spec` on the concrete trash `fsPurge`:
the old readable-metadata item `b.txt` is purged together with its
sidecar, and the recent item `c.txt` is untouched. -/
theorem Purge_cutoff_spec_witness :
    (lookupFs (Purge (fun _ => ts0) fsPurge ["trash"] tsCut) ["trash", "H", "b.txt"] = none ∧
     lookupFs (Purge (fun _ => ts0) fsPurge ["trash"] tsCut)
       (sidecarPath ["trash", "H", "b.txt"]) = none) ∧
    (lookupFs (Purge (fun _ => ts0) fsPurge ["trash"] tsCut) ["trash", "H", "c.txt"] =
       lookupFs fsPurge ["trash", "H", "c.txt"] ∧
     lookupFs (Purge (fun _ => ts0) fsPurge ["trash"] tsCut)
       (sidecarPath ["trash", "H", "c.txt"]) =
       lookupFs fsPurge (sidecarPath ["trash", "H", "c.txt"])) := by
  constructor
  · exact (Purge_cutoff_spec (fun _ => ts0) fsPurge ["trash"] tsCut (by decide)
      ["trash", "H", "b.txt"] (by decide)).1
      ⟨["x", "b.txt"], ts0, "H", false⟩ rfl (by decide)
  · exact (Purge_cutoff_spec (fun _ => ts0) fsPurge ["trash"] tsCut (by decide)
      ["trash", "H", "c.txt"] (by decide)).2.1
      ⟨["x", "c.txt"], ts2, "H", false⟩ rfl (by decide)

/-- **C5, counterexample.**  The claim says a confirmed `Empty` prunes
*every* directory left empty, bottom-up.  In `fsEmptyScn` the only item
`trash/H/a/b/f` and its sidecar are deleted and `b` is pruned, but the
walk is a single top-down pass: `a` was still non-empty when visited,
so the now-empty `a` survives. -/
theorem Empty_leaves_emptied_parent :
    lookupFs (Empty fsEmptyScn ["trash"] true) ["trash", "H", "a"] = some (.dir []) := by
  exact rfl

/-- **C5 (amended).**  A confirmed `Empty` permanently deletes every
enumerated item and its sidecar (first conjunct, covering the final
pruning pass as well).  The pruning pass itself is a single top-down
walk: a directory that is empty when visited is removed (second
conjunct), while a directory that still has children when visited
survives the pass even if all those children are pruned right after
(third conjunct) — so a directory left empty only by the pruning of its
children is not pruned. -/
theorem Empty_confirmed_spec (fs : Entry) (T : Path)
    (hwf : Entry.wfB fs = true)
    (hpw : (findTrashItems fs T).Pairwise pairRel)
    (hfile : ∀ p ∈ findTrashItems fs T, ∃ c, lookupFs fs (sidecarPath p) = some (.file c)) :
    (∀ p ∈ findTrashItems fs T,
      lookupFs (Empty fs T true) p = none ∧
      lookupFs (Empty fs T true) (sidecarPath p) = none) ∧
    (∀ g : Entry, Entry.wfB g = true → ∀ rel, rel ≠ [] →
      lookupFs g rel = some (.dir []) → lookupFs (cleanEmptyDirs g) rel = none) ∧
    (∀ (g : Entry) (ch : Dirents), Entry.wfB g = true →
      ∀ rel, lookupFs g rel = some (.dir ch) → ch ≠ [] →
      ∃ ch', lookupFs (cleanEmptyDirs g) rel = some (.dir ch')) := by
  refine ⟨?_, fun g hg rel hrne hrel => clean_prune_empty hg hrne hrel,
    fun g ch hg rel hrel hch => clean_keep_nonempty hg hrel hch⟩
  intro p hp
  obtain ⟨rel0, hrelne, hpT⟩ := (findTrashItems_shape p hp).2
  have hfold := empty_fold_spec (findTrashItems fs T) fs hpw
    (fun x hx => (findTrashItems_shape x hx).1) hfile p hp
  have hwf' : Entry.wfB ((findTrashItems fs T).foldl emptyStep fs) = true :=
    wf_foldl_empty _ hwf
  obtain ⟨q0, n0, hrel0⟩ := List.eq_nil_or_concat rel0 |>.resolve_left hrelne
  rw [List.concat_eq_append] at hrel0
  have hside : sidecarPath p = T ++ (q0 ++ [n0 ++ metaSfx]) := by
    rw [hpT, hrel0]
    show appendLast (T ++ (q0 ++ [n0])) metaSfx = _
    rw [← List.append_assoc, appendLast_concat, List.append_assoc]
  simp only [Empty, Bool.not_true, Bool.false_eq_true, if_false]
  cases hT : lookupFs ((findTrashItems fs T).foldl emptyStep fs) T with
  | none => exact hfold
  | some e =>
    have hchain := lookup_chain_dirs hT
    have hset := @setAt_isSome ((findTrashItems fs T).foldl emptyStep fs)
      T (cleanEmptyDirs e) hchain
    cases hs : setAt ((findTrashItems fs T).foldl emptyStep fs) T (cleanEmptyDirs e) with
    | none => rw [hs] at hset; simp at hset
    | some fs2 =>
      simp only [hs, Option.getD_some]
      have hewf : Entry.wfB e = true := wf_lookup hwf' hT
      have happ := lookupFs_append ((findTrashItems fs T).foldl emptyStep fs) T
      constructor
      · have h1 : lookupFs e rel0 = none := by
          have := hfold.1
          rw [hpT, happ rel0, hT] at this
          simpa using this
        rw [hpT, lookupFs_setAt_append hs rel0]
        exact clean_lookup_none hewf h1
      · have h2 : lookupFs e (q0 ++ [n0 ++ metaSfx]) = none := by
          have := hfold.2
          rw [hside, happ (q0 ++ [n0 ++ metaSfx]), hT] at this
          simpa using this
        rw [hside, lookupFs_setAt_append hs (q0 ++ [n0 ++ metaSfx])]
        exact clean_lookup_none hewf h2

/-- Witness for `Empty_confirmed_spec` on the concrete trash
`fsEmptyScn`: the single item and its sidecar are gone after a
confirmed `Empty`. -/
theorem Empty_confirmed_spec_witness :
    lookupFs (Empty fsEmptyScn ["trash"] true) ["trash", "H", "a", "b", "f"] = none ∧
    lookupFs (Empty fsEmptyScn ["trash"] true)
      (sidecarPath ["trash", "H", "a", "b", "f"]) = none := by
  have hfile : ∀ p ∈ findTrashItems fsEmptyScn ["trash"],
      ∃ c, lookupFs fsEmptyScn (sidecarPath p) = some (.file c) := by
    intro p hp
    have hlist : findTrashItems fsEmptyScn ["trash"] = [["trash", "H", "a", "b", "f"]] := by
      decide
    rw [hlist] at hp
    simp only [List.mem_cons, List.not_mem_nil, or_false] at hp
    subst hp
    exact ⟨.metaJson ⟨["q", "f"], ts0, "H", false⟩, rfl⟩
  exact (Empty_confirmed_spec fsEmptyScn ["trash"] (by decide) (by decide) hfile).1
    ["trash", "H", "a", "b", "f"] (by decide)

/-- **C6, counterexample.**  With the single user pattern `/data/**`,
the path `/database` — a sibling of `/data`, not located under it — is
classified protected, because the `/**` branch tests a raw string
prefix (`/data` is a string prefix of `/database`). -/
theorem Check_protects_string_sibling :
    Check ⟨["/data/**"], "confirm"⟩ "/w" (fun _ => false) "/database" false =
      ⟨true, "Path is under protected directory: /data"⟩ := by
  decide

/-- **C9, divergence witness.**  With home directory `/home/u` and
working directory `/work`, the pattern `~/secret` does *not* protect
`/home/u/secret`: the source expands `~` with
`filepath.Abs(filepath.Join("~"))`, which resolves the literal
component `~` against the working directory, so the pattern becomes
`/work/~/secret` and only that path is protected. -/
theorem Check_tilde_expands_to_cwd :
    Check ⟨["~/secret"], "confirm"⟩ "/work" (fun _ => false) "/home/u/secret" false =
      ⟨false, ""⟩ ∧
    Check ⟨["~/secret"], "confirm"⟩ "/work" (fun _ => false) "/work/~/secret" false =
      ⟨true, "Path matches protected pattern: /work/~/secret"⟩ := by
  exact ⟨by decide, by decide⟩

/-- **C10.**  Under the default `confirm` behavior, when classification
marks the target protected and `-f` is set, `processPath` returns an
error immediately: no confirmation prompt is issued, no interactive
prompt is reached, and the filesystem is unchanged — force neither
bypasses protection nor substitutes for the confirmation phrase.  (The
existence and directory-gate hypotheses put the run on the path that
reaches the protection check at all.) -/
theorem processPath_force_never_bypasses (cfg : Config) (env : ProcEnv) (opts : Options)
    (fs : Entry) (pathArg : String) (answers : List String)
    (hprot : (Check cfg env.cwd env.gitGlob (goAbs env.cwd pathArg) opts.recursive).prot = true)
    (hbeh : cfg.protectedBehavior = "confirm")
    (hforce : opts.force = true)
    (hex : (lookupFs fs (toComps (goAbs env.cwd pathArg))).isSome = true)
    (hdir : ∀ ch, lookupFs fs (toComps (goAbs env.cwd pathArg)) = some (.dir ch) →
      opts.recursive = true) :
    (processPath cfg env opts fs pathArg answers).err.isSome = true ∧
    (processPath cfg env opts fs pathArg answers).fs = fs ∧
    (processPath cfg env opts fs pathArg answers).prompts = 0 := by
  unfold processPath
  cases hl : lookupFs fs (toComps (goAbs env.cwd pathArg)) with
  | none => rw [hl] at hex; simp at hex
  | some info =>
    cases info with
    | file c =>
      simp only [hl, hprot, hbeh, hforce, if_true]
      simp
    | dir ch =>
      have hrec := hdir ch hl
      rw [hrec] at hprot
      simp only [hl, hrec, hprot, hbeh, hforce]
      simp

/-- Witness for `processPath_force_never_bypasses`: removing the
protected built-in `/home` recursively with `-f` under `confirm`
behavior errors out without prompting or moving anything. -/
theorem processPath_force_never_bypasses_witness :
    (processPath ⟨[], "confirm"⟩ ⟨"/w", fun _ => false, menv1⟩ ⟨true, true, false, false, false⟩
        (.dir [("home", .dir [("u", .file (.bytes "x"))]), ("trash", .dir [])])
        "/home" []).err.isSome = true ∧
    (processPath ⟨[], "confirm"⟩ ⟨"/w", fun _ => false, menv1⟩ ⟨true, true, false, false, false⟩
        (.dir [("home", .dir [("u", .file (.bytes "x"))]), ("trash", .dir [])])
        "/home" []).fs =
      .dir [("home", .dir [("u", .file (.bytes "x"))]), ("trash", .dir [])] ∧
    (processPath ⟨[], "confirm"⟩ ⟨"/w", fun _ => false, menv1⟩ ⟨true, true, false, false, false⟩
        (.dir [("home", .dir [("u", .file (.bytes "x"))]), ("trash", .dir [])])
        "/home" []).prompts = 0 :=
  processPath_force_never_bypasses ⟨[], "confirm"⟩ ⟨"/w", fun _ => false, menv1⟩
    ⟨true, true, false, false, false⟩
    (.dir [("home", .dir [("u", .file (.bytes "x"))]), ("trash", .dir [])])
    "/home" [] (by decide) rfl rfl (by decide) (by intro ch h; rfl)

/-- **C8.**  `Restore(originalPath)` selects, among enumerated items
whose recorded original path equals `orig`, the one with the strictly
latest deletion timestamp; it fails with `notFound` when no enumerated
item matches and with `alreadyExists` when something already occupies
`orig` (returning before any mutation); on success it creates missing
parent directories, moves the selected item back to `orig`, and removes
its sidecar, leaving the original location holding the trashed entry,
the trash slot and its sidecar gone, and the parent directory in
place. -/
theorem Restore_spec (fs : Entry) (T orig : Path) :
    ((∀ i ∈ findTrashItems fs T, ∀ m, GetMetadata fs i = some m →
        m.originalPath ≠ orig) →
      Restore fs T orig = .error .notFound) ∧
    (∀ i ∈ findTrashItems fs T, ∀ m, GetMetadata fs i = some m →
      m.originalPath = orig → (lookupFs fs orig).isSome = true →
      Restore fs T orig = .error .alreadyExists) ∧
    (∀ iS mS eS fs1,
      iS ∈ findTrashItems fs T →
      (findTrashItems fs T).Nodup →
      GetMetadata fs iS = some mS →
      mS.originalPath = orig →
      (∀ j ∈ findTrashItems fs T, j ≠ iS → ∀ m, GetMetadata fs j = some m →
        m.originalPath = orig → m.deletedAt.key < mS.deletedAt.key) →
      lookupFs fs orig = none →
      orig ≠ [] →
      mkdirAllFs fs orig.dropLast = some fs1 →
      lookupFs fs iS = some eS →
      diverge iS orig →
      diverge (sidecarPath iS) orig →
      ∃ fsF, Restore fs T orig = .ok fsF ∧
        lookupFs fsF orig = some eS ∧
        lookupFs fsF iS = none ∧
        lookupFs fsF (sidecarPath iS) = none ∧
        ∃ ch, lookupFs fsF orig.dropLast = some (.dir ch)) := by
  refine ⟨?_, ?_, ?_⟩
  · intro h
    simp only [Restore]
    rw [pickMatch_none h]
  · intro i hi m hg ho hex
    obtain ⟨pr, hpr⟩ := Option.isSome_iff_exists.mp (pickMatch_isSome hi hg ho)
    obtain ⟨pi, pm⟩ := pr
    simp only [Restore, hpr]
    rw [if_pos hex]
  · intro iS mS eS fs1 hiS hnd hg ho hmax horig hone hmk hlkS hdv hdvS
    obtain ⟨⟨q, n, hqn⟩, -⟩ := findTrashItems_shape iS hiS
    have hdvSide : diverge iS (sidecarPath iS) := by
      rw [hqn]; exact diverge_sidecar q n
    have hSne : sidecarPath iS ≠ [] := by
      rw [hqn]; unfold sidecarPath; rw [appendLast_concat]; simp
    have hiSne : iS ≠ [] := by rw [hqn]; simp
    have hnp1 : ¬ iS <+: orig.dropLast :=
      fun hc => hdv.1 (hc.trans (dropLast_isPrefix orig))
    have hnp2 : ¬ orig <+: orig.dropLast := by
      intro hc
      have h1 := hc.length_le
      rw [List.length_dropLast] at h1
      have h2 : 0 < orig.length := List.length_pos.mpr hone
      omega
    have hlk1 : lookupFs fs1 iS = some eS := by
      rw [lookupFs_mkdirAll_notPre hmk hnp1]; exact hlkS
    have hlk2 : lookupFs fs1 orig = none := by
      rw [lookupFs_mkdirAll_notPre hmk hnp2]; exact horig
    have hchain : ∀ r, r <+: orig → r ≠ orig →
        ∃ ch, lookupFs (eraseAt fs1 iS) r = some (.dir ch) := by
      intro r hr hne
      have hrd : r <+: orig.dropLast := prefix_dropLast hr hne
      obtain ⟨ch, hch⟩ := mkdirAll_chain hmk r hrd
      have hnpr : ¬ iS <+: r :=
        fun hc => hdv.1 (hc.trans (hrd.trans (dropLast_isPrefix orig)))
      exact lookupFs_eraseAt_dir fs1 iS hch hnpr
    obtain ⟨fs2, hset⟩ := Option.isSome_iff_exists.mp (setAt_isSome eS hchain)
    have hren : renameFs fs1 iS orig = some fs2 := by
      simp only [renameFs, hlk1, hlk2]
      exact hset
    have hpick : pickMatch fs orig (findTrashItems fs T) = some (iS, mS) :=
      pickMatch_max hnd hiS hg ho hmax
    have hsideFs := GetMetadata_some_inv hg
    have hside1 : lookupFs fs1 (sidecarPath iS) = some (.file (.metaJson mS)) :=
      lookupFs_mkdirAll_file hmk hsideFs
    have hside2 : lookupFs fs2 (sidecarPath iS) = some (.file (.metaJson mS)) := by
      rw [lookupFs_setAt_diverge hset hdvS.symm,
        lookupFs_eraseAt_diverge fs1 hdvSide]
      exact hside1
    obtain ⟨fs3, hrm⟩ :=
      Option.isSome_iff_exists.mp (removeF_isSome_file hside2 hSne)
    have hfs3 : fs3 = eraseAt fs2 (sidecarPath iS) := removeF_eq_eraseAt hrm
    have hif : (lookupFs fs orig).isSome = false := by rw [horig]; rfl
    refine ⟨fs3, ?_, ?_, ?_, ?_, ?_⟩
    · simp only [Restore, hpick, hif, Bool.false_eq_true, if_false, hmk, hren, hrm,
        Option.getD_some]
    · rw [hfs3, lookupFs_eraseAt_diverge fs2 hdvS]
      exact lookupFs_setAt_self hset
    · rw [hfs3, lookupFs_eraseAt_diverge fs2 hdvSide.symm,
        lookupFs_setAt_diverge hset hdv.symm]
      exact lookupFs_eraseAt_self fs1 hiSne
    · rw [hfs3]
      exact lookupFs_eraseAt_self fs2 hSne
    · have hdp : orig.dropLast <+: orig := dropLast_isPrefix orig
      have hdne : orig.dropLast ≠ orig := by
        intro hc
        have h1 := congrArg List.length hc
        rw [List.length_dropLast] at h1
        have h2 : 0 < orig.length := List.length_pos.mpr hone
        omega
      obtain ⟨ch, hch⟩ := lookupFs_setAt_chain hset orig.dropLast hdp hdne
      have hnps : ¬ (sidecarPath iS) <+: orig.dropLast :=
        fun hc => hdvS.1 (hc.trans hdp)
      obtain ⟨ch2, hch2⟩ := lookupFs_eraseAt_dir fs2 (sidecarPath iS) hch hnps
      exact ⟨ch2, by rw [hfs3]; exact hch2⟩

/-- Witness for `Restore_spec`: restoring `/home/u/f.txt` from a trash
holding two generations picks the newer one, recreates the file at the
original location, and clears the trash slot and its sidecar. -/
theorem Restore_spec_witness :
    ∃ fsF, Restore fsRest ["trash"] ["home", "u", "f.txt"] = .ok fsF ∧
      lookupFs fsF ["home", "u", "f.txt"] = some (.file (.bytes "new")) ∧
      lookupFs fsF ["trash", "H", "f.txt.20240501-100000"] = none ∧
      lookupFs fsF (sidecarPath ["trash", "H", "f.txt.20240501-100000"]) = none ∧
      ∃ ch, lookupFs fsF (["home", "u", "f.txt"] : Path).dropLast = some (.dir ch) :=
  (Restore_spec fsRest ["trash"] ["home", "u", "f.txt"]).2.2
    ["trash", "H", "f.txt.20240501-100000"]
    ⟨["home", "u", "f.txt"], ts1, "H", false⟩
    (.file (.bytes "new")) fsRest
    (by decide) (by decide) (by decide) (by decide)
    (by
      intro j hj hne m hgj hoj
      have hlist : findTrashItems fsRest ["trash"] =
          [["trash", "H", "f.txt"], ["trash", "H", "f.txt.20240501-100000"]] := by decide
      rw [hlist] at hj
      rcases List.mem_cons.mp hj with h1 | h1
      · subst h1
        have hgv : GetMetadata fsRest ["trash", "H", "f.txt"] =
            some ⟨["home", "u", "f.txt"], ts0, "H", false⟩ := by decide
        rw [hgv] at hgj
        have hm := Option.some.inj hgj
        subst hm
        decide
      · rcases List.mem_cons.mp h1 with h2 | h2
        · exact absurd h2 hne
        · simp at h2)
    rfl (by decide) rfl rfl (by decide) (by decide)


/-- **C7.**  When the computed destination
`trashBase/hostname/strippedSource` already exists, `Move` returns that
destination with `"."` plus the second-resolution timestamp appended to
its final component (a single disambiguation with no further retry —
the formula holds whether or not the disambiguated name is itself
taken); distinct valid timestamps give distinct disambiguated
locations; and the entry already stored at the plain destination is
left untouched by the second `Move`, succeed or fail. -/
theorem Move_collision_spec (env : MoveEnv) (fs : Entry) (src : Path)
    (hcol : (lookupFs fs (env.trashBase ++ env.hostname :: src)).isSome = true)
    (hsd : diverge src (env.trashBase ++ env.hostname :: src)) :
    moveDest env fs src =
      appendLast (env.trashBase ++ env.hostname :: src) ("." ++ fmtTs env.now) ∧
    (∀ t1 t2 : DateTime, t1.valid → t2.valid → t1 ≠ t2 →
      appendLast (env.trashBase ++ env.hostname :: src) ("." ++ fmtTs t1) ≠
        appendLast (env.trashBase ++ env.hostname :: src) ("." ++ fmtTs t2)) ∧
    lookupFs (Move env fs src).1 (env.trashBase ++ env.hostname :: src) =
      lookupFs fs (env.trashBase ++ env.hostname :: src) ∧
    ((Move env fs src).2.2 = none ∨
      (Move env fs src).2.2 =
        some (appendLast (env.trashBase ++ env.hostname :: src) ("." ++ fmtTs env.now))) := by
  have hdne : env.trashBase ++ env.hostname :: src ≠ [] := by simp
  obtain ⟨q, n, hqn⟩ : ∃ q n, env.trashBase ++ env.hostname :: src = q ++ [n] := by
    rcases List.eq_nil_or_concat (env.trashBase ++ env.hostname :: src) with h | ⟨q, n, h⟩
    · exact absurd h hdne
    · exact ⟨q, n, by rw [h, List.concat_eq_append]⟩
  have hdest : moveDest env fs src =
      appendLast (env.trashBase ++ env.hostname :: src) ("." ++ fmtTs env.now) := by
    simp [moveDest, hcol]
  refine ⟨hdest, ?_, ?_, ?_⟩
  · intro t1 t2 hv1 hv2 hne hc
    rw [hqn, appendLast_concat, appendLast_concat] at hc
    have h1 := List.append_cancel_left hc
    simp only [List.cons.injEq, and_true] at h1
    have h2 := string_append_left_cancel h1
    have h3 := string_append_left_cancel h2
    exact hne (fmtTs_inj hv1 hv2 h3)
  · apply Move_frame env fs src hsd
    · rw [hdest, hqn, appendLast_concat]
      exact diverge_concat_ne
        (Ne.symm (string_ne_append_of_ne_empty n ("." ++ fmtTs env.now)
          (string_dot_ne_empty (fmtTs env.now))))
    · rw [hdest, hqn, dropLast_appendLast]
      intro hc
      have hl := hc.length_le
      simp at hl
    · rw [hdest, hqn]
      unfold sidecarPath
      rw [appendLast_concat, appendLast_concat]
      refine diverge_concat_ne (Ne.symm ?_)
      rw [String.append_assoc]
      exact string_ne_append_of_ne_empty n (("." ++ fmtTs env.now) ++ metaSfx)
        (string_append_ne_empty_left (string_dot_ne_empty (fmtTs env.now)) metaSfx)
  · rcases Move_ret env fs src with h | h
    · exact Or.inl h
    · exact Or.inr (by rw [h, hdest])

/-- Witness for `Move_collision_spec`: re-deleting `/home/u/f.txt` when
the trash already holds `trash/H/home/u/f.txt` disambiguates the
destination with the timestamp suffix and preserves the first trashed
entry. -/
theorem Move_collision_spec_witness :
    moveDest menv1 fsCol ["home", "u", "f.txt"] =
      appendLast (menv1.trashBase ++ menv1.hostname :: ["home", "u", "f.txt"])
        ("." ++ fmtTs menv1.now) ∧
    lookupFs (Move menv1 fsCol ["home", "u", "f.txt"]).1
        (menv1.trashBase ++ menv1.hostname :: ["home", "u", "f.txt"]) =
      lookupFs fsCol (menv1.trashBase ++ menv1.hostname :: ["home", "u", "f.txt"]) :=
  ⟨(Move_collision_spec menv1 fsCol ["home", "u", "f.txt"] (by decide) (by decide)).1,
   (Move_collision_spec menv1 fsCol ["home", "u", "f.txt"] (by decide) (by decide)).2.2.1⟩


/-- **C6 (amended).**  For a user pattern `dir ++ "/**"` whose `dir`
part is free of glob metacharacters and which does not start with `~`:
if the pattern is configured and the (cleaned) classified path has
`dir` as a raw string prefix, classification returns protected; and
with that pattern as the whole user list, a path missed by every
earlier rule (root, wildcard-root, built-ins, git) that does not have
`dir` as a string prefix is classified not-protected.  The protected
direction is a raw `strings.HasPrefix` test, so it also fires on
string-prefix siblings such as `/database` under `/data/**`. -/
theorem Check_dirstar_spec (cfg : Config) (cwd : String) (g : String → Bool)
    (absPath0 : String) (r : Bool) (dir : String)
    (hnotilde : hasPre (dir ++ "/**") "~" = false) :
    ((dir ++ "/**") ∈ cfg.protectedPaths →
      hasPre (goClean absPath0) dir = true →
      (Check cfg cwd g absPath0 r).prot = true) ∧
    (cfg.protectedPaths = [dir ++ "/**"] →
      (∀ c ∈ dir.data, c ≠ '*' ∧ c ≠ '?' ∧ c ≠ '[' ∧ c ≠ '\\') →
      ¬ (goClean absPath0 = "/" ∨ goClean absPath0 = "\\") →
      isWildcardRoot (goClean absPath0) = false →
      checkBuiltin (goClean absPath0) r = none →
      isGitPath g (goClean absPath0) = false →
      hasPre (goClean absPath0) dir = false →
      (Check cfg cwd g absPath0 r).prot = false) := by
  constructor
  · intro hmem hpre
    have hsome : (checkUserPats cwd cfg.protectedPaths (goClean absPath0)).isSome = true := by
      apply findSome?_isSome_of_isSome hmem
      simp only [hnotilde, Bool.false_eq_true, if_false]
      by_cases hm : goMatch (dir ++ "/**") (goClean absPath0) = true
      · rw [if_pos hm]
        rfl
      · rw [if_neg hm, if_pos (hasSuf_append dir "/**"), trimSuf_append, if_pos hpre]
        rfl
    simp only [Check]
    by_cases hroot : goClean absPath0 = "/" ∨ goClean absPath0 = "\\"
    · rw [if_pos hroot]
    · rw [if_neg hroot]
      cases hwild : isWildcardRoot (goClean absPath0) with
      | true => simp only [hwild, if_true]
      | false =>
        simp only [hwild, Bool.false_eq_true, if_false]
        cases hb : checkBuiltin (goClean absPath0) r with
        | some st =>
          simp only [hb]
          exact checkBuiltin_prot hb
        | none =>
          simp only [hb]
          cases hgit : isGitPath g (goClean absPath0) with
          | true => simp only [hgit, if_true]
          | false =>
            simp only [hgit, Bool.false_eq_true, if_false]
            cases hu : checkUserPats cwd cfg.protectedPaths (goClean absPath0) with
            | some st =>
              simp only [hu]
              exact checkUserPats_prot hu
            | none => rw [hu] at hsome; simp at hsome
  · intro hpats hmeta hroot hwild hbuiltin hgit hnpre
    simp only [Check]
    rw [if_neg hroot]
    simp only [hwild, Bool.false_eq_true, if_false, hbuiltin, hgit]
    have hnone : checkUserPats cwd cfg.protectedPaths (goClean absPath0) = none := by
      rw [hpats]
      unfold checkUserPats
      have hm : goMatch (dir ++ "/**") (goClean absPath0) = false :=
        goMatch_literal_false hmeta hnpre
      simp [hnotilde, hm, hasSuf_append, trimSuf_append, hnpre]
    simp only [hnone]

/-- Witness for `Check_dirstar_spec`: with the single user pattern
`/data/**`, the path `/data/x` under the directory is protected and the
non-extending sibling `/db` is not. -/
theorem Check_dirstar_spec_witness :
    (Check ⟨["/data/**"], "confirm"⟩ "/w" (fun _ => false) "/data/x" false).prot = true ∧
    (Check ⟨["/data/**"], "confirm"⟩ "/w" (fun _ => false) "/db" false).prot = false :=
  ⟨(Check_dirstar_spec ⟨["/data/**"], "confirm"⟩ "/w" (fun _ => false) "/data/x" false "/data"
      (by decide)).1 (by decide) (by decide),
   (Check_dirstar_spec ⟨["/data/**"], "confirm"⟩ "/w" (fun _ => false) "/db" false "/data"
      (by decide)).2 rfl (by decide) (by decide) (by decide) (by decide) (by decide) (by decide)⟩


/-- `processPath` either leaves the filesystem unchanged or hands it to
`trash.Move` on the resolved path — it performs no deletion of its
own. -/
theorem processPath_fs_cases (cfg : Config) (env : ProcEnv) (opts : Options) (fs : Entry)
    (pathArg : String) (answers : List String) :
    (processPath cfg env opts fs pathArg answers).fs = fs ∨
    (processPath cfg env opts fs pathArg answers).fs =
      (Move env.menv fs (toComps (goAbs env.cwd pathArg))).1 := by
  simp only [processPath]
  repeat' split
  all_goals first
    | exact Or.inl rfl
    | exact Or.inr rfl

/-- **C1.**  No accepted path goes straight from live to purged: the
orchestrator never deletes on its own — its resulting filesystem is
either untouched or the output of a single `trash.Move` on the resolved
source — and every removal syscall in any `Move` plan (rename path and
cross-device copy+delete fallback alike) targets the source subtree and
is preceded in the executed trace by destination writes of the exact
content of every file the removal destroys.  As `execList` executes the
plan in order and stops at the first failure, a source file is removed
only after its content has been written into the trash. -/
theorem processPath_live_to_trash (cfg : Config) (env : ProcEnv) (opts : Options)
    (fs : Entry) (pathArg : String) (answers : List String) :
    ((processPath cfg env opts fs pathArg answers).fs = fs ∨
     (processPath cfg env opts fs pathArg answers).fs =
       (Move env.menv fs (toComps (goAbs env.cwd pathArg))).1) ∧
    (∀ (env2 : MoveEnv) (fs2 : Entry) (src : Path) (ops : List FsOp) (dst : Path) (e : Entry),
      movePlan env2 fs2 src = some (ops, dst) →
      lookupFs fs2 src = some e →
      rmCoveredCtx src dst e [] ops) :=
  ⟨processPath_fs_cases cfg env opts fs pathArg answers,
   fun _ _ _ _ _ _ hp he => movePlan_rmCovered hp he⟩

/-- Witness for `processPath_live_to_trash`: a cross-device move of the
directory `/home/u/mydir`; the concrete plan lists the write of
`f.txt`'s content into the trash before both removals. -/
theorem processPath_live_to_trash_witness :
    ((processPath ⟨[], "confirm"⟩ ⟨"/w", fun _ => false, menv1⟩
        ⟨true, true, false, false, false⟩ fsDir "/home/u/mydir" []).fs = fsDir ∨
     (processPath ⟨[], "confirm"⟩ ⟨"/w", fun _ => false, menv1⟩
        ⟨true, true, false, false, false⟩ fsDir "/home/u/mydir" []).fs =
       (Move menv1 fsDir (toComps (goAbs "/w" "/home/u/mydir"))).1) ∧
    rmCoveredCtx ["home", "u", "mydir"] ["trash", "H", "home", "u", "mydir"]
      (.dir [("f.txt", .file (.bytes "hello"))]) []
      [.mkAll ["trash", "H", "home", "u"],
       .mkAll ["trash", "H", "home", "u", "mydir"],
       .wr ["trash", "H", "home", "u", "mydir", "f.txt"] (.bytes "hello"),
       .rmF ["home", "u", "mydir", "f.txt"],
       .rmAll ["home", "u", "mydir"],
       .wrMetaTry ["trash", "H", "home", "u", "mydir.saferm-meta"]
         (.metaJson ⟨["home", "u", "mydir"], ts1, "H", true⟩)] :=
  ⟨(processPath_live_to_trash ⟨[], "confirm"⟩ ⟨"/w", fun _ => false, menv1⟩
      ⟨true, true, false, false, false⟩ fsDir "/home/u/mydir" []).1,
   (processPath_live_to_trash ⟨[], "confirm"⟩ ⟨"/w", fun _ => false, menv1⟩
      ⟨true, true, false, false, false⟩ fsDir "/home/u/mydir" []).2
     ⟨["trash"], "H", ts1, true⟩ fsDir ["home", "u", "mydir"]
     [.mkAll ["trash", "H", "home", "u"],
      .mkAll ["trash", "H", "home", "u", "mydir"],
      .wr ["trash", "H", "home", "u", "mydir", "f.txt"] (.bytes "hello"),
      .rmF ["home", "u", "mydir", "f.txt"],
      .rmAll ["home", "u", "mydir"],
      .wrMetaTry ["trash", "H", "home", "u", "mydir.saferm-meta"]
        (.metaJson ⟨["home", "u", "mydir"], ts1, "H", true⟩)]
     ["trash", "H", "home", "u", "mydir"]
     (.dir [("f.txt", .file (.bytes "hello"))]) rfl rfl⟩

end SafeRm
